import Mathlib

/-!
The review-document parser of `re` (`src/main.go`).

A shallow embedding of `parseFile`, `printPR` and `wrap`, and theorems about
them.

Conventions of the embedding:

* A Go `string` is a finite sequence of bytes.  It is modelled as `Str`, a list
  of symbols, one symbol per byte (the byte with code `n` is the `Char` with
  code `n`).  The program never looks inside a byte: it compares bytes with
  ASCII literals, counts them and slices at byte offsets.
* A Go `int` holding an offset is an `Int` (the value `-1` is used as a
  sentinel by the source).  Offsets are bounded by the length of the input, so
  machine overflow does not arise.  The position counter `num` only counts
  lines and is a `Nat`.
* A run-time panic (slice bounds out of range, index out of range) is the
  result `none`.
* Pointers: `review.Body`, `review.CommitID` and `c.Body` are `*string`; a nil
  pointer is `none`.
-/

namespace Re

/-- A Go string: a list of bytes, one `Char` per byte. -/
abbrev Str := List Char

/-! ## Library functions used by the source -/

/-- Go `s[lo:hi]` on a string: panics (`none`) unless `0 ≤ lo ≤ hi ≤ len(s)`. -/
def slice (s : Str) (lo hi : Int) : Option Str :=
  if 0 ≤ lo ∧ lo ≤ hi ∧ hi ≤ (s.length : Int) then
    some ((s.drop lo.toNat).take (hi.toNat - lo.toNat))
  else
    none

/-- Go `strings.SplitAfter(s, "\n")`: cut after every newline; the last piece
is what follows the last newline (possibly empty). -/
def splitAfterNL : Str → List Str
  | [] => [[]]
  | c :: cs =>
    if c = '\n' then [c] :: splitAfterNL cs
    else
      match splitAfterNL cs with
      | [] => [[c]]
      | l :: ls => (c :: l) :: ls

/-- Go `strings.TrimRight(s, "\n")`: drop every trailing newline. -/
def trimRightNL (s : Str) : Str :=
  s.rdropWhile (fun c => c == '\n')

/-- Go `strings.HasPrefix(s, p)`. -/
def hasPrefix (s p : Str) : Bool :=
  p.isPrefixOf s

/-- A regular expression of the form `^<lit>(.*)$` applied with
`FindStringSubmatch`: it matches when the text starts with the literal and the
rest contains no newline (`.` does not match a newline and `$` only matches at
the end of the text); the result is the captured group 1. -/
def findLitRest (lit s : Str) : Option Str :=
  if lit.isPrefixOf s ∧ '\n' ∉ s.drop lit.length then
    some (s.drop lit.length)
  else
    none

/-! ## Constants of the source -/

/-- Source: `topLevelStartMarker`. -/
def topLevelStartMarker : Str :=
  "# ------ BEGIN  TOP-LEVEL REVIEW COMMENTS ----- #".toList

/-- Source: `topLevelEndMarker`. -/
def topLevelEndMarker : Str :=
  "# ------ END OF TOP-LEVEL REVIEW COMMENTS ----- #".toList

/-- The literal part of `commitStart = ^commit (.*)$`. -/
def commitLit : Str := "commit ".toList

/-- Source: `diffStart`. -/
def diffStart : Str := "diff --git ".toList

/-- The literal part of `fileStart = ^\+\+\+ b\/(.*)$`. -/
def fileLit : Str := "+++ b/".toList

/-- Source: `hunkStart`. -/
def hunkStart : Str := "@@".toList

/-- Source: `commitStart.FindStringSubmatch(line)`, group 1. -/
def commitStart (line : Str) : Option Str := findLitRest commitLit line

/-- Source: `fileStart.FindStringSubmatch(line)`, group 1. -/
def fileStart (line : Str) : Option Str := findLitRest fileLit line

/-! ## Data model -/

/-- The fields of `github.DraftReviewComment` that the program sets. -/
structure DraftReviewComment where
  Path : Str
  Position : Nat
  Body : Option Str
  deriving DecidableEq, Repr

/-- The fields of `github.PullRequestReviewRequest` that the program sets. -/
structure PullRequestReviewRequest where
  CommitID : Option Str
  Body : Option Str
  Comments : List DraftReviewComment
  deriving DecidableEq, Repr

/-- Source: `makeDraftReviewComment`. -/
def makeDraftReviewComment (path : Str) (position : Nat) : DraftReviewComment :=
  { Path := path, Position := position, Body := none }

/-- The variables of `parseFile` that live across loop iterations.
`lastCommentStart` is assigned at the top of every iteration before it is read,
so it is a local of the loop body (see `parseLine`). -/
structure ParseState where
  commit : Str
  file : Str
  num : Nat
  foundFirstHunk : Bool
  commentStart : Int
  topLevelCommentStart : Int
  review : PullRequestReviewRequest
  off : Int
  deriving DecidableEq, Repr

/-- The values of the variables of `parseFile` before the loop. -/
def initState : ParseState :=
  { commit := [], file := [], num := 0, foundFirstHunk := false,
    commentStart := -1, topLevelCommentStart := 0,
    review := { CommitID := none, Body := none, Comments := [] },
    off := 0 }

/-- Source: `c := review.Comments[len(review.Comments)-1]; c.Body = &body`.
The index expression panics on an empty list. -/
def setLastBody (cs : List DraftReviewComment) (body : Str) :
    Option (List DraftReviewComment) :=
  match cs.getLast? with
  | none => none
  | some c => some (cs.dropLast ++ [{ c with Body := some body }])

/-- One iteration of the loop of `parseFile` on a non-empty piece `raw` of
`strings.SplitAfter(dat, "\n")`, after the assignments
`lastCommentStart = commentStart; commentStart = -1`, which are done here. -/
def parseLine (dat : Str) (st : ParseState) (raw : Str) : Option ParseState :=
  let lastCommentStart := st.commentStart
  let st := { st with commentStart := -1 }
  let off := st.off + (raw.length : Int)
  let st := { st with off := off }
  let line := trimRightNL raw
  -- Process top level comments.
  if line = topLevelStartMarker then
    some { st with topLevelCommentStart := off }
  else if line = topLevelEndMarker then
    match slice dat st.topLevelCommentStart (off - (line.length : Int) - 2) with
    | none => none
    | some body =>
      some { st with review := { st.review with Body := some body },
                     topLevelCommentStart := 0 }
  else if st.topLevelCommentStart ≠ 0 then
    some st
  else
    -- Process commit header.
    match commitStart line with
    | some c =>
      some { st with foundFirstHunk := false, commit := c,
                     review := { st.review with CommitID := some c } }
    | none =>
      -- Process diff header.
      if hasPrefix line diffStart then
        some { st with foundFirstHunk := false }
      else
        -- Process file header.
        match fileStart line with
        | some f => some { st with file := f }
        | none =>
          -- Process first hunk header.
          if !st.foundFirstHunk then
            if hasPrefix line hunkStart then
              some { st with foundFirstHunk := true, num := 0 }
            else
              some st
          else
            -- Process special diff first-chars.
            let c0 := line.head?
            if c0 = some '+' ∨ c0 = some '-' ∨ c0 = some ' ' ∨ c0 = some '@' then
              some { st with num := st.num + 1 }
            else if c0 = some '*' then
              -- Old comment
              some st
            else
              -- We found a comment!
              let commentStart := lastCommentStart
              let comments :=
                if commentStart = -1 then
                  st.review.Comments ++ [makeDraftReviewComment st.file st.num]
                else st.review.Comments
              let commentStart :=
                if commentStart = -1 then off - (line.length : Int) - 1
                else commentStart
              match slice dat commentStart (off - 1) with
              | none => none
              | some body =>
                match setLastBody comments body with
                | none => none
                | some comments =>
                  some { st with commentStart := commentStart,
                                 review := { st.review with Comments := comments } }

/-- The loop of `parseFile` over the pieces of `strings.SplitAfter(dat, "\n")`:
an empty piece ends the loop (`break`), a panic in an iteration is `none`. -/
def parseLoop (dat : Str) : List Str → ParseState → Option ParseState
  | [], st => some st
  | raw :: rest, st =>
    if raw = [] then some { st with commentStart := -1 }
    else
      match parseLine dat st raw with
      | none => none
      | some st => parseLoop dat rest st

/-- Source: `parseFile`.  The error result of the source is always `nil`, so
only the review is returned; `none` is a run-time panic. -/
def parseFile (b : Str) : Option PullRequestReviewRequest :=
  (parseLoop b (splitAfterNL b) initState).map (fun st => st.review)

/-! ## Documents made of lines -/

/-- The text made of the given lines, each followed by a newline. -/
def joinLines : List Str → Str
  | [] => []
  | l :: ls => l ++ '\n' :: joinLines ls

/-- The lines of a document as the loop of `parseFile` sees them: the pieces of
`strings.SplitAfter(dat, "\n")`, each without its trailing newlines. -/
def docLines (dat : Str) : List Str :=
  (splitAfterNL dat).map trimRightNL

/-- A line that the loop counts as a diff line once a hunk is open: its first
byte is `+`, `-`, space or `@`, and it is not a `+++ b/` file header. -/
def isDiffLine (l : Str) : Bool :=
  (l.head? == some '+' || l.head? == some '-' || l.head? == some ' ' ||
    l.head? == some '@') && !(fileLit.isPrefixOf l)

/-- A line that the loop takes as comment text once a hunk is open: it is empty
or its first byte is none of space, `+`, `-`, `@`, `*`, and it is neither a
marker line, nor a commit header, nor a `diff --git ` header. -/
def isCommentLine (l : Str) : Bool :=
  !(l == topLevelStartMarker) && !(l == topLevelEndMarker) &&
  !(commitLit.isPrefixOf l) && !(diffStart.isPrefixOf l) &&
  !(l.head? == some ' ' || l.head? == some '+' || l.head? == some '-' ||
    l.head? == some '@' || l.head? == some '*')

/-- The loop invariant that keeps the slices of comment text in range. -/
def Safe (dat : Str) (st : ParseState) (n : Nat) : Prop :=
  0 ≤ st.off ∧ st.off + (n : Int) ≤ (dat.length : Int) ∧
  (st.foundFirstHunk = true → 1 ≤ st.off) ∧
  (st.commentStart ≠ -1 →
    0 ≤ st.commentStart ∧ st.commentStart ≤ st.off ∧ st.review.Comments ≠ [])

/-- Two states of the loop that read the same text `Z` behind different
texts of lengths `a1` and `a2`: they agree on everything but the body of the
review, and their offsets differ by the difference of `a1` and `a2`. -/
def Shifted (a1 a2 : Int) (s1 s2 : ParseState) : Prop :=
  s1.commit = s2.commit ∧ s1.file = s2.file ∧ s1.num = s2.num ∧
  s1.foundFirstHunk = s2.foundFirstHunk ∧
  s1.review.CommitID = s2.review.CommitID ∧ s1.review.Comments = s2.review.Comments ∧
  s1.off - a1 = s2.off - a2 ∧ 1 ≤ s1.off - a1 ∧
  ((s1.commentStart = -1 ∧ s2.commentStart = -1) ∨
    (s1.commentStart - a1 = s2.commentStart - a2 ∧ 0 ≤ s1.commentStart - a1)) ∧
  ((s1.topLevelCommentStart = 0 ∧ s2.topLevelCommentStart = 0) ∨
    (s1.topLevelCommentStart - a1 = s2.topLevelCommentStart - a2 ∧
      1 ≤ s1.topLevelCommentStart - a1))

/-! ## The renderer: `wrap` and `printPR` -/

/-- Go `strings.Replace(t, "\r\n", "\n", -1)`. -/
def replaceCRLF : Str → Str
  | [] => []
  | [c] => [c]
  | c :: d :: rest =>
    if c = '\r' ∧ d = '\n' then '\n' :: replaceCRLF rest
    else c :: replaceCRLF (d :: rest)

/-- Go `strings.Split(t, "\n")`. -/
def splitNL : Str → List Str
  | [] => [[]]
  | c :: cs =>
    if c = '\n' then [] :: splitNL cs
    else
      match splitNL cs with
      | [] => [[c]]
      | l :: ls => (c :: l) :: ls

/-- The index of the last space among the bytes of `s`, counted from `i`, or
`acc` when there is none. -/
def lastIndexFrom (s : Str) (i : Nat) (acc : Int) : Int :=
  match s with
  | [] => acc
  | c :: cs => lastIndexFrom cs (i + 1) (if c = ' ' then (i : Int) else acc)

/-- Go `strings.LastIndex(s, " ")`: the index of the last space, or `-1`. -/
def lastIndexSpace (s : Str) : Int :=
  lastIndexFrom s 0 (-1)

/-- The inner loop of `wrap`, `for len(s) > 70 { ... }`, together with the
final `out += s`: the text it appends to `out`.  Every iteration removes at
least one byte of `s`, so the loop runs at most `len(s)` times; the first
argument bounds the number of iterations and `wrap` passes `len(s)`. -/
def wrapLine (pfx : Str) : Nat → Str → Str
  | 0, s => s
  | fuel + 1, s =>
    if s.length > 70 then
      let i := lastIndexSpace (s.take 70)
      let i := if i < 0 then 69 else i
      let i := i + 1
      s.take i.toNat ++ ['\n'] ++ pfx ++ wrapLine pfx fuel (s.drop i.toNat)
    else s

/-- Source: `wrap` (its second parameter is called `prefix` in the source). -/
def wrap (t : Str) (pfx : Str) : Str :=
  match splitNL (replaceCRLF t) with
  | [] => []
  | line :: lines =>
    wrapLine pfx line.length line ++
      (lines.map (fun line => ['\n'] ++ pfx ++ wrapLine pfx line.length line)).flatten

/-- The fields of `github.PullRequest` that `printPR` reads.  `UserLogin` is
`pr.User.Login` (`none` when `pr.User` or the login is nil); `CreatedAt` is the
text `getTime(pr.CreatedAt).Format(timeFormat)` as produced by the time
library; `MergedAt` and `ClosedAt` are `none` for a nil pointer and otherwise
hold the formatted time. -/
structure PullRequest where
  UserLogin : Option Str
  CreatedAt : Str
  Title : Option Str
  State : Option Str
  MergedAt : Option Str
  ClosedAt : Option Str
  Number : Option Int
  Body : Option Str

/-- The fields of `github.IssueComment` that `printPR` reads, with the same
conventions as `PullRequest`. -/
structure IssueComment where
  UserLogin : Option Str
  CreatedAt : Str
  Body : Option Str

/-- Source: `getString` (and `getUserLogin` on the login). -/
def getString (x : Option Str) : Str := x.getD []

/-- Source: `getInt`. -/
def getInt (x : Option Int) : Int := x.getD 0

/-- The verb `%d` of `fmt`: the decimal digits of an integer. -/
def fmtInt (n : Int) : Str := (toString n).toList

/-- The text `printPR` writes for a body (of the pull request or of a comment):
nothing for a nil or blank body, else the wrapped text after a blank line and a
tab.  `trimSpace` is `strings.TrimSpace`. -/
def printBody (trimSpace : Str → Str) (body : Option Str) : Str :=
  match body with
  | none => []
  | some b =>
    let text := trimSpace b
    if text ≠ [] then "\n\t".toList ++ wrap text "\t".toList ++ "\n".toList else []

/-- The first part of the format string at the end of `printPR`, up to the
first `%s`. -/
def templateHead : Str :=
  "\n# Add top-level review comments by typing between the marker lines below.\n# Don't modify the markers!\n# Approve this PR by typing \"APPROVE\" on a line by itself.\n# Request changes on this PR by typing \"DENY\" on a line by itself.\n\n".toList

/-- The last part of the format string at the end of `printPR`, after the
second `%s`. -/
def templateTail : Str :=
  "\n\n# Add ordinary review comments by typing on a new line below the line of the\n# diff you'd like to comment on. Comments may not begin with the special\n# characters <space>, +, -, @, or *.\n#\n# Pre-existing comments are prefixed with *.\n\n".toList

/-- Source: `printPR`, first part (up to the loop over the discussion
comments): the header lines and the body of the pull request.  `trimSpace` is
`strings.TrimSpace`, `projectOwner` and `projectRepo` are the globals of the
source. -/
def printPRHeader (trimSpace : Str → Str) (projectOwner projectRepo : Str)
    (pr : PullRequest) : Str :=
  "commit 0000000000000000000000000000000000000000\n".toList ++
  ("Author: ".toList ++ getString pr.UserLogin ++ "\n".toList) ++
  ("Date:   ".toList ++ pr.CreatedAt ++ "\n".toList) ++
  ("Title:  ".toList ++ getString pr.Title ++ "\n".toList) ++
  ("State:  ".toList ++ getString pr.State ++ "\n".toList) ++
  (match pr.MergedAt with
   | some t => "Merged: ".toList ++ t ++ "\n".toList
   | none => []) ++
  (match pr.ClosedAt with
   | some t => "Closed: ".toList ++ t ++ "\n".toList
   | none => []) ++
  ("URL:    https://github.com/".toList ++ projectOwner ++ "/".toList ++ projectRepo ++
    "/pulls/".toList ++ fmtInt (getInt pr.Number) ++ "\n".toList) ++
  ("\nCreated by ".toList ++ getString pr.UserLogin ++ " (".toList ++ pr.CreatedAt ++
    ")\n".toList) ++
  printBody trimSpace pr.Body

/-- Source: `printPR`, the text written for one discussion comment. -/
def printComment (trimSpace : Str → Str) (com : IssueComment) : Str :=
  "\nComment by ".toList ++ getString com.UserLogin ++ " (".toList ++ com.CreatedAt ++
    ")\n".toList ++ printBody trimSpace com.Body

/-- Source: `printPR`, as the text written to `w`.  `comments` are the
discussion comments returned by `client.Issues.ListComments`, all pages in
order, every call succeeding. -/
def printPR (trimSpace : Str → Str) (projectOwner projectRepo : Str) (pr : PullRequest)
    (comments : List IssueComment) : Str :=
  printPRHeader trimSpace projectOwner projectRepo pr ++
  (comments.map (printComment trimSpace)).flatten ++
  "\n".toList ++
  (templateHead ++ topLevelStartMarker ++ "\n".toList ++ topLevelEndMarker ++ templateTail)

/-- The texts of a list joined by a separator (Go `strings.Join`). -/
def joinSep (sep : Str) : List Str → Str
  | [] => []
  | [a] => a
  | a :: b :: r => a ++ sep ++ joinSep sep (b :: r)

/-! ## The output lines of `wrap` -/

/-- The value of `i` after `i++` in the inner loop of `wrap`: the number of
bytes of `s` that go on the current output line. -/
def breakIndex (s : Str) : Nat :=
  ((if lastIndexSpace (s.take 70) < 0 then 69 else lastIndexSpace (s.take 70)) + 1).toNat

/-- The inner loop of `wrap` with an explicit bound on the number of
iterations: `none` when the bound is reached while `len(s) > 70` still holds. -/
def wrapLineSteps (pfx : Str) : Nat → Str → Option Str
  | 0, s => if s.length > 70 then none else some s
  | fuel + 1, s =>
    if s.length > 70 then
      (wrapLineSteps pfx fuel (s.drop (breakIndex s))).map
        (fun rest => s.take (breakIndex s) ++ ['\n'] ++ pfx ++ rest)
    else some s

/-- The output lines that the inner loop of `wrap` makes of `s`: the pieces
`s[:i]` in order, then what is left of `s`. -/
def wrapSegs : Nat → Str → List Str
  | 0, s => [s]
  | fuel + 1, s =>
    if s.length > 70 then s.take (breakIndex s) :: wrapSegs fuel (s.drop (breakIndex s))
    else [s]

/-- The output lines of `wrap`, without the prefix. -/
def wrapAllSegs (t : Str) : List Str :=
  ((splitNL (replaceCRLF t)).map (fun line => wrapSegs line.length line)).flatten

/-! ## The commit id as the specification states it -/

/-- The lines of a list that lie outside the top-level region, the flag telling
whether the first line is inside it: a start marker line opens the region, an
end marker line closes it, and the marker lines belong to neither side. -/
def outsideRegion : List Str → Bool → List Str
  | [], _ => []
  | l :: ls, inRegion =>
    if l = topLevelStartMarker then outsideRegion ls true
    else if l = topLevelEndMarker then outsideRegion ls false
    else if inRegion then outsideRegion ls true
    else l :: outsideRegion ls false

/-- The commit id of a document in the words of the specification: the text
captured by `^commit (.*)$`
on the last line outside the top-level region that matches, `none` when no line
does. -/
def lastCommit (dat : Str) : Option Str :=
  ((outsideRegion (docLines dat) false).filterMap commitStart).getLast?

/-! ## The gate as the specification states it -/

/-- A commit header or a `diff --git ` line. -/
def closesGate (l : Str) : Bool :=
  (commitStart l).isSome || hasPrefix l diffStart

/-- The gate in the words of the specification, `lines` being the lines seen so
far: the gate is closed when no line starting with `@@` has been seen since the
start or since the most recent commit header or `diff --git ` line. -/
def gateClosed (lines : List Str) : Bool :=
  (lines.reverse.takeWhile (fun l => !closesGate l)).all (fun l => !hasPrefix l hunkStart)

/-! ## Basic facts about the library functions -/

theorem splitAfterNL_ne_nil (s : Str) : splitAfterNL s ≠ [] := by
  cases s with
  | nil => simp [splitAfterNL]
  | cons c cs =>
    simp only [splitAfterNL]
    split
    · simp
    · split <;> simp

theorem splitAfterNL_line (l rest : Str) (h : '\n' ∉ l) :
    splitAfterNL (l ++ '\n' :: rest) = (l ++ ['\n']) :: splitAfterNL rest := by
  induction l with
  | nil => simp [splitAfterNL]
  | cons c cs ih =>
    have hc : c ≠ '\n' := fun e => h (by simp [e])
    have hcs : '\n' ∉ cs := fun e => h (by simp [e])
    simp [splitAfterNL, hc, ih hcs]

theorem splitAfterNL_noNL (l : Str) (h : '\n' ∉ l) : splitAfterNL l = [l] := by
  induction l with
  | nil => simp [splitAfterNL]
  | cons c cs ih =>
    have hc : c ≠ '\n' := fun e => h (by simp [e])
    have hcs : '\n' ∉ cs := fun e => h (by simp [e])
    simp [splitAfterNL, hc, ih hcs]

theorem splitAfterNL_join (s : Str) : (splitAfterNL s).flatten = s := by
  induction s with
  | nil => simp [splitAfterNL]
  | cons c cs ih =>
    simp only [splitAfterNL]
    split
    · subst_vars; simp [ih]
    · split
      · rename_i h; exact absurd h (splitAfterNL_ne_nil cs)
      · rename_i h; rw [h] at ih; simp at ih ⊢; exact ih

theorem trimRightNL_addNL (l : Str) (h : '\n' ∉ l) : trimRightNL (l ++ ['\n']) = l := by
  unfold trimRightNL
  rw [List.rdropWhile_concat_pos _ _ _ (by simp)]
  rw [List.rdropWhile_eq_self_iff]
  intro hl
  have := List.getLast_mem hl
  simp
  intro e
  exact h (e ▸ this)

theorem trimRightNL_noNL (l : Str) (h : '\n' ∉ l) : trimRightNL l = l := by
  unfold trimRightNL
  rw [List.rdropWhile_eq_self_iff]
  intro hl
  have := List.getLast_mem hl
  simp
  intro e
  exact h (e ▸ this)

theorem trimRightNL_length_le (l : Str) : (trimRightNL l).length ≤ l.length := by
  unfold trimRightNL
  exact (List.rdropWhile_prefix _ _).length_le


theorem slice_eq_none_iff (s : Str) (lo hi : Int) :
    slice s lo hi = none ↔ ¬ (0 ≤ lo ∧ lo ≤ hi ∧ hi ≤ (s.length : Int)) := by
  unfold slice
  split <;> simp_all

theorem setLastBody_eq_none_iff (cs : List DraftReviewComment) (b : Str) :
    setLastBody cs b = none ↔ cs = [] := by
  unfold setLastBody
  split
  · rename_i h; simpa using h
  · rename_i c h
    simp
    intro e
    simp [e] at h

theorem setLastBody_ne_nil (cs cs' : List DraftReviewComment) (b : Str)
    (h : setLastBody cs b = some cs') : cs' ≠ [] := by
  unfold setLastBody at h
  split at h
  · simp at h
  · cases h; simp

/-! ### The slices of comment text stay in range -/

theorem parseLine_safe (dat : Str) (st : ParseState) (raw : Str) (n : Nat)
    (hs : Safe dat st (raw.length + n)) (hraw : raw ≠ [])
    (hend : trimRightNL raw ≠ topLevelEndMarker) :
    ∃ st', parseLine dat st raw = some st' ∧ Safe dat st' n ∧
      st'.review.Body = st.review.Body := by
  obtain ⟨h0, h1, h2, h3⟩ := hs
  have hlen : 1 ≤ raw.length := List.length_pos.mpr hraw
  have htrim := trimRightNL_length_le raw
  push_cast at h1
  unfold parseLine
  simp only []
  repeat' split
  all_goals first
    | (refine ⟨_, rfl, ⟨?_, ?_, ?_, ?_⟩, rfl⟩ <;> simp <;> omega)
    | skip
  · rename_i hsl
    exfalso
    have hg : 1 ≤ st.off := h2 (by simp_all)
    rw [slice_eq_none_iff] at hsl
    apply hsl
    by_cases hc : st.commentStart = -1
    · simp only [hc, if_true]; omega
    · have := h3 hc
      simp only [hc, if_false]; omega
  · rename_i hsb
    rw [setLastBody_eq_none_iff] at hsb
    split at hsb
    · simp at hsb
    · rename_i hc
      exact absurd hsb (h3 hc).2.2
  · rename_i hsb hc
    have hg : 1 ≤ st.off := h2 (by simp_all)
    have hne := setLastBody_ne_nil _ _ _ hsb
    refine ⟨_, rfl, ⟨?_, ?_, ?_, ?_⟩, rfl⟩ <;> simp <;> first | omega | skip
    intro _
    exact ⟨by omega, by omega, hne⟩
  · rename_i hsb hc
    have hne := setLastBody_ne_nil _ _ _ hsb
    have := h3 hc
    refine ⟨_, rfl, ⟨?_, ?_, ?_, ?_⟩, rfl⟩ <;> simp <;> first | omega | skip
    intro _
    exact ⟨by omega, by omega, hne⟩

theorem parseLoop_cons (dat : Str) (raw : Str) (rest : List Str) (st : ParseState)
    (h : raw ≠ []) :
    parseLoop dat (raw :: rest) st = (parseLine dat st raw).bind (parseLoop dat rest) := by
  simp only [parseLoop, h, if_false]
  cases parseLine dat st raw <;> rfl

theorem parseLoop_append (dat : Str) (l1 l2 : List Str) (st : ParseState)
    (h : ∀ p ∈ l1, p ≠ []) :
    parseLoop dat (l1 ++ l2) st = (parseLoop dat l1 st).bind (parseLoop dat l2) := by
  induction l1 generalizing st with
  | nil => simp [parseLoop]
  | cons p ps ih =>
    have hp : p ≠ [] := h p (by simp)
    have hps : ∀ q ∈ ps, q ≠ [] := fun q hq => h q (by simp [hq])
    rw [List.cons_append, parseLoop_cons _ _ _ _ hp, parseLoop_cons _ _ _ _ hp]
    cases parseLine dat st p with
    | none => rfl
    | some st1 => simpa using ih st1 hps

theorem safe_weaken (dat : Str) (st : ParseState) (m n : Nat) (h : Safe dat st (m + n)) :
    Safe dat st n := by
  obtain ⟨h0, h1, h2, h3⟩ := h
  exact ⟨h0, by push_cast at h1; omega, h2, h3⟩

theorem parseLoop_safe (dat : Str) (pieces : List Str) (st : ParseState) (n : Nat)
    (hs : Safe dat st (pieces.flatten.length + n))
    (hend : ∀ p ∈ pieces, trimRightNL p ≠ topLevelEndMarker) :
    ∃ st', parseLoop dat pieces st = some st' ∧ Safe dat st' n ∧
      st'.review.Body = st.review.Body := by
  induction pieces generalizing st with
  | nil => exact ⟨st, rfl, by simpa using hs, rfl⟩
  | cons p ps ih =>
    by_cases hp : p = []
    · refine ⟨{ st with commentStart := -1 }, by simp [parseLoop, hp], ?_, rfl⟩
      have := safe_weaken _ _ _ _ hs
      obtain ⟨h0, h1, h2, h3⟩ := this
      exact ⟨h0, h1, h2, fun h => absurd rfl h⟩
    · have hs' : Safe dat st (p.length + (ps.flatten.length + n)) := by
        simpa [Nat.add_assoc] using hs
      obtain ⟨st1, e1, s1, b1⟩ := parseLine_safe dat st p _ hs' hp (hend p (by simp))
      obtain ⟨st2, e2, s2, b2⟩ := ih st1 s1 (fun q hq => hend q (by simp [hq]))
      exact ⟨st2, by rw [parseLoop_cons _ _ _ _ hp, e1]; exact e2, s2, b2.trans b1⟩

theorem safe_init (dat : Str) : Safe dat initState dat.length := by
  refine ⟨by simp [initState], by simp [initState], by simp [initState], by simp [initState]⟩

theorem parseFile_no_end (dat : Str)
    (hend : ∀ l ∈ docLines dat, l ≠ topLevelEndMarker) :
    ∃ r, parseFile dat = some r ∧ r.Body = none := by
  have hs : Safe dat initState ((splitAfterNL dat).flatten.length + 0) := by
    rw [splitAfterNL_join]; exact safe_init dat
  obtain ⟨st, e, _, b⟩ := parseLoop_safe dat _ _ 0 hs
    (fun p hp => hend _ (List.mem_map_of_mem _ hp))
  exact ⟨st.review, by simp [parseFile, e], b⟩

/-! ### One iteration of the loop, by kind of line -/

theorem startMarker_head : topLevelStartMarker.head? = some '#' := by decide
theorem endMarker_head : topLevelEndMarker.head? = some '#' := by decide
theorem startMarker_length : topLevelStartMarker.length = 49 := by decide
theorem endMarker_length : topLevelEndMarker.length = 49 := by decide
theorem startMarker_ne_endMarker : topLevelStartMarker ≠ topLevelEndMarker := by decide
theorem startMarker_noNL : '\n' ∉ topLevelStartMarker := by decide
theorem endMarker_noNL : '\n' ∉ topLevelEndMarker := by decide
theorem commitLit_eq : commitLit = 'c' :: "ommit ".toList := by decide
theorem diffStart_eq : diffStart = 'd' :: "iff --git ".toList := by decide
theorem fileLit_eq : fileLit = '+' :: "++ b/".toList := by decide
theorem hunkStart_eq : hunkStart = ['@', '@'] := by decide

theorem isPrefixOf_head_ne (a : Char) (t l : Str) (h : l.head? ≠ some a) :
    (a :: t).isPrefixOf l = false := by
  cases l with
  | nil => rfl
  | cons c cs =>
    simp only [List.head?_cons, ne_eq, Option.some.injEq] at h
    simp [List.isPrefixOf, Ne.symm h]

theorem findLitRest_eq_none (lit l : Str) (h : lit.isPrefixOf l = false) :
    findLitRest lit l = none := by
  simp [findLitRest, h]

/-- What the loop's tests give on a comment line. -/
theorem commentLine_facts (l : Str) (h : isCommentLine l = true) :
    l ≠ topLevelStartMarker ∧ l ≠ topLevelEndMarker ∧ commitStart l = none ∧
    hasPrefix l diffStart = false ∧ fileStart l = none ∧
    ¬ (l.head? = some '+' ∨ l.head? = some '-' ∨ l.head? = some ' ' ∨ l.head? = some '@') ∧
    ¬ l.head? = some '*' := by
  simp only [isCommentLine, Bool.and_eq_true, Bool.not_eq_true', beq_eq_false_iff_ne, ne_eq,
    Bool.or_eq_false_iff] at h
  obtain ⟨⟨⟨⟨h1, h2⟩, h3⟩, h4⟩, ⟨⟨⟨h5, h6⟩, h7⟩, h8⟩, h9⟩ := h
  refine ⟨h1, h2, findLitRest_eq_none _ _ h3, h4, ?_, ?_, h9⟩
  · exact findLitRest_eq_none _ _ (by rw [fileLit_eq]; exact isPrefixOf_head_ne _ _ _ h6)
  · rintro (e | e | e | e) <;> contradiction

/-- What the loop's tests give on a diff line. -/
theorem diffLine_facts (l : Str) (h : isDiffLine l = true) :
    l ≠ topLevelStartMarker ∧ l ≠ topLevelEndMarker ∧ commitStart l = none ∧
    hasPrefix l diffStart = false ∧ fileStart l = none ∧
    (l.head? = some '+' ∨ l.head? = some '-' ∨ l.head? = some ' ' ∨ l.head? = some '@') := by
  simp only [isDiffLine, Bool.and_eq_true, Bool.or_eq_true, beq_iff_eq, Bool.not_eq_true'] at h
  obtain ⟨hh, hf⟩ := h
  have hhd : ∀ a : Char, a ≠ '+' → a ≠ '-' → a ≠ ' ' → a ≠ '@' → l.head? ≠ some a := by
    intro a h1 h2 h3 h4 e
    rw [e] at hh
    simp only [Option.some.injEq] at hh
    rcases hh with ((hh | hh) | hh) | hh <;> contradiction
  refine ⟨?_, ?_, ?_, ?_, findLitRest_eq_none _ _ hf, by tauto⟩
  · intro e
    exact hhd '#' (by decide) (by decide) (by decide) (by decide) (e ▸ startMarker_head)
  · intro e
    exact hhd '#' (by decide) (by decide) (by decide) (by decide) (e ▸ endMarker_head)
  · apply findLitRest_eq_none
    rw [commitLit_eq]
    exact isPrefixOf_head_ne _ _ _ (hhd 'c' (by decide) (by decide) (by decide) (by decide))
  · unfold hasPrefix
    rw [diffStart_eq]
    exact isPrefixOf_head_ne _ _ _ (hhd 'd' (by decide) (by decide) (by decide) (by decide))

theorem parseLine_start (dat : Str) (st : ParseState) (raw : Str)
    (h : trimRightNL raw = topLevelStartMarker) :
    parseLine dat st raw = some { st with commentStart := -1, off := st.off + raw.length, topLevelCommentStart := st.off + raw.length } := by
  simp [parseLine, h]

theorem parseLine_end (dat : Str) (st : ParseState) (raw : Str)
    (h : trimRightNL raw = topLevelEndMarker) :
    parseLine dat st raw =
      (slice dat st.topLevelCommentStart (st.off + raw.length - 49 - 2)).map
        (fun body =>
          { st with commentStart := -1, off := st.off + raw.length, review := { st.review with Body := some body }, topLevelCommentStart := 0 }) := by
  simp only [parseLine, h, endMarker_length, Ne.symm startMarker_ne_endMarker, if_false, if_true]
  cases slice dat st.topLevelCommentStart (st.off + raw.length - ((49 : Nat) : Int) - 2) <;> rfl

theorem parseLine_region (dat : Str) (st : ParseState) (raw : Str)
    (h1 : trimRightNL raw ≠ topLevelStartMarker) (h2 : trimRightNL raw ≠ topLevelEndMarker)
    (h3 : st.topLevelCommentStart ≠ 0) :
    parseLine dat st raw = some { st with commentStart := -1, off := st.off + raw.length } := by
  simp [parseLine, h1, h2, h3]

theorem parseLine_firstHunk (dat : Str) (st : ParseState) (raw : Str)
    (h : hasPrefix (trimRightNL raw) hunkStart = true)
    (hreg : st.topLevelCommentStart = 0) (hgate : st.foundFirstHunk = false) :
    parseLine dat st raw = some { st with commentStart := -1, off := st.off + raw.length, foundFirstHunk := true, num := 0 } := by
  have hd : isDiffLine (trimRightNL raw) = true := by
    unfold hasPrefix at h
    rw [hunkStart_eq] at h
    cases hl : trimRightNL raw with
    | nil => rw [hl] at h; simp [List.isPrefixOf] at h
    | cons c cs =>
      rw [hl] at h
      simp only [List.isPrefixOf, Bool.and_eq_true, beq_iff_eq] at h
      obtain ⟨rfl, _⟩ := h
      simp [isDiffLine, fileLit_eq, List.isPrefixOf]
  obtain ⟨h1, h2, h3, h4, h5, _⟩ := diffLine_facts _ hd
  simp [parseLine, h1, h2, h3, h4, h5, hreg, hgate, h]

theorem parseLine_diff (dat : Str) (st : ParseState) (raw : Str)
    (h : isDiffLine (trimRightNL raw) = true)
    (hreg : st.topLevelCommentStart = 0) (hgate : st.foundFirstHunk = true) :
    parseLine dat st raw = some { st with commentStart := -1, off := st.off + raw.length, num := st.num + 1 } := by
  obtain ⟨h1, h2, h3, h4, h5, h6⟩ := diffLine_facts _ h
  simp [parseLine, h1, h2, h3, h4, h5, hreg, hgate, h6]

theorem flatten_map_addNL (ls : List Str) :
    (ls.map (fun l => l ++ ['\n'])).flatten = joinLines ls := by
  induction ls with
  | nil => rfl
  | cons l ls ih => simp [joinLines, ih]

theorem splitAfterNL_joinLines (ls : List Str) (rest : Str) (h : ∀ l ∈ ls, '\n' ∉ l) :
    splitAfterNL (joinLines ls ++ rest) = ls.map (fun l => l ++ ['\n']) ++ splitAfterNL rest := by
  induction ls with
  | nil => rfl
  | cons l ls ih =>
    have hl : '\n' ∉ l := h l (by simp)
    have hls : ∀ q ∈ ls, '\n' ∉ q := fun q hq => h q (by simp [hq])
    simp only [joinLines, List.append_assoc, List.cons_append, List.map_cons]
    rw [splitAfterNL_line _ _ hl, ih hls]

theorem setLastBody_concat (C : List DraftReviewComment) (cm : DraftReviewComment) (b : Str) :
    setLastBody (C ++ [cm]) b = some (C ++ [{ cm with Body := some b }]) := by
  simp [setLastBody]

theorem parseLine_comment (dat : Str) (st : ParseState) (raw : Str)
    (h : isCommentLine (trimRightNL raw) = true)
    (hreg : st.topLevelCommentStart = 0) (hgate : st.foundFirstHunk = true) :
    parseLine dat st raw =
      (slice dat (if st.commentStart = -1 then st.off + raw.length - (trimRightNL raw).length - 1
          else st.commentStart) (st.off + raw.length - 1)).bind (fun body =>
        (setLastBody (if st.commentStart = -1 then
            st.review.Comments ++ [makeDraftReviewComment st.file st.num]
          else st.review.Comments) body).map (fun comments =>
          { st with commentStart := (if st.commentStart = -1 then st.off + raw.length - (trimRightNL raw).length - 1 else st.commentStart), off := st.off + raw.length, review := { st.review with Comments := comments } })) := by
  obtain ⟨h1, h2, h3, h4, h5, h6, h7⟩ := commentLine_facts _ h
  simp only [parseLine, h1, h2, h3, h4, h5, hreg, hgate, h6, h7, if_false, ne_eq,
    not_true_eq_false, Bool.not_true, Bool.false_eq_true]
  cases slice dat (if st.commentStart = -1 then st.off + raw.length - (trimRightNL raw).length - 1
          else st.commentStart) (st.off + raw.length - 1) with
  | none => rfl
  | some body =>
    simp only [Option.bind]
    cases setLastBody (if st.commentStart = -1 then
            st.review.Comments ++ [makeDraftReviewComment st.file st.num]
          else st.review.Comments) body <;> rfl

/-! ### What an iteration can change -/

theorem parseLine_off (dat : Str) (st st' : ParseState) (raw : Str)
    (h : parseLine dat st raw = some st') : st'.off = st.off + (raw.length : Int) := by
  unfold parseLine at h
  simp only [] at h
  repeat' split at h
  all_goals first | (cases h; rfl) | (simp at h)

theorem parseLine_tlcs (dat : Str) (st st' : ParseState) (raw : Str)
    (h : parseLine dat st raw = some st')
    (h1 : trimRightNL raw ≠ topLevelStartMarker) (h2 : trimRightNL raw ≠ topLevelEndMarker) :
    st'.topLevelCommentStart = st.topLevelCommentStart := by
  unfold parseLine at h
  simp only [] at h
  repeat' split at h
  all_goals first | contradiction | (cases h; rfl)

/-- One iteration either leaves the comment list alone and closes the current
comment, or appends one comment, or rewrites the last comment. -/
theorem parseLine_comments (dat : Str) (st st' : ParseState) (raw : Str)
    (h : parseLine dat st raw = some st') :
    (st'.review.Comments = st.review.Comments ∧ st'.commentStart = -1) ∨
    (∃ c, st.commentStart = -1 ∧ st'.review.Comments = st.review.Comments ++ [c]) ∨
    (∃ c, st.commentStart ≠ -1 ∧ st'.review.Comments = st.review.Comments.dropLast ++ [c]) := by
  unfold parseLine at h
  simp only [] at h
  repeat' split at h
  all_goals first | (cases h; left; exact ⟨rfl, rfl⟩) | (simp at h; done) | skip
  · rename_i body _ comments hsb hc
    cases h
    right; left
    rw [hc] at hsb
    simp only [if_true, setLastBody_concat, Option.some.injEq] at hsb
    exact ⟨_, hc, hsb.symm⟩
  · rename_i body _ comments hsb hc
    cases h
    right; right
    simp only [hc, if_false] at hsb
    unfold setLastBody at hsb
    split at hsb
    · simp at hsb
    · simp only [Option.some.injEq] at hsb
      exact ⟨_, hc, hsb.symm⟩

theorem parseLoop_off (dat : Str) (pieces : List Str) (st st' : ParseState)
    (h : parseLoop dat pieces st = some st') (hne : ∀ p ∈ pieces, p ≠ []) :
    st'.off = st.off + (pieces.flatten.length : Int) := by
  induction pieces generalizing st with
  | nil => simp only [parseLoop, Option.some.injEq] at h; subst h; simp
  | cons p ps ih =>
    have hp : p ≠ [] := hne p (by simp)
    rw [parseLoop_cons _ _ _ _ hp] at h
    cases e : parseLine dat st p with
    | none => rw [e] at h; simp at h
    | some st1 =>
      rw [e] at h
      have := ih st1 h (fun q hq => hne q (by simp [hq]))
      rw [this, parseLine_off _ _ _ _ e]
      simp only [List.flatten_cons, List.length_append]
      push_cast
      ring

theorem parseLoop_tlcs (dat : Str) (pieces : List Str) (st st' : ParseState)
    (h : parseLoop dat pieces st = some st')
    (hm : ∀ p ∈ pieces, trimRightNL p ≠ topLevelStartMarker ∧ trimRightNL p ≠ topLevelEndMarker) :
    st'.topLevelCommentStart = st.topLevelCommentStart := by
  induction pieces generalizing st with
  | nil => simp only [parseLoop, Option.some.injEq] at h; subst h; rfl
  | cons p ps ih =>
    by_cases hp : p = []
    · simp only [parseLoop, hp, if_true, Option.some.injEq] at h; subst h; rfl
    · rw [parseLoop_cons _ _ _ _ hp] at h
      cases e : parseLine dat st p with
      | none => rw [e] at h; simp at h
      | some st1 =>
        rw [e] at h
        have := ih st1 h (fun q hq => hm q (by simp [hq]))
        rw [this, parseLine_tlcs _ _ _ _ e (hm p (by simp)).1 (hm p (by simp)).2]

/-- The loop never removes a comment that is already closed: the comments of
the result extend those of the start state, up to the comment still open. -/
theorem parseLoop_comments (dat : Str) (pieces : List Str) (st st' : ParseState)
    (h : parseLoop dat pieces st = some st') :
    ∃ later, st'.review.Comments =
      (if st.commentStart = -1 then st.review.Comments else st.review.Comments.dropLast)
        ++ later := by
  have hdl : ∀ l : List DraftReviewComment, ∃ t, l = l.dropLast ++ t := by
    intro l
    rcases List.eq_nil_or_concat l with e | ⟨i, a, e⟩
    · exact ⟨[], by simp [e]⟩
    · exact ⟨[a], by simp [e]⟩
  have hboth : ∀ (l t : List DraftReviewComment), ∃ later,
      l ++ t = (if st.commentStart = -1 then l else l.dropLast) ++ later := by
    intro l t
    split
    · exact ⟨t, rfl⟩
    · obtain ⟨u, hu⟩ := hdl l
      exact ⟨u ++ t, by rw [← List.append_assoc, ← hu]⟩
  induction pieces generalizing st with
  | nil =>
    simp only [parseLoop, Option.some.injEq] at h; subst h
    simpa using hboth st.review.Comments []
  | cons p ps ih =>
    by_cases hp : p = []
    · simp only [parseLoop, hp, if_true, Option.some.injEq] at h; subst h
      simpa using hboth st.review.Comments []
    · rw [parseLoop_cons _ _ _ _ hp] at h
      cases e : parseLine dat st p with
      | none => rw [e] at h; simp at h
      | some st1 =>
        rw [e] at h
        have hdl1 : ∀ (l t : List DraftReviewComment), ∃ later,
            l ++ t = (if st1.commentStart = -1 then l else l.dropLast) ++ later := by
          intro l t
          split
          · exact ⟨t, rfl⟩
          · obtain ⟨u, hu⟩ := hdl l
            exact ⟨u ++ t, by rw [← List.append_assoc, ← hu]⟩
        obtain ⟨later, hl⟩ := ih st1 h hdl1
        rcases parseLine_comments _ _ _ _ e with ⟨hc, hs⟩ | ⟨c, hs, hc⟩ | ⟨c, hs, hc⟩
        · rw [hl, hs, hc]
          simpa using hboth st.review.Comments later
        · rw [hl, hc, hs]
          simp only [if_true]
          split
          · exact ⟨[c] ++ later, by simp⟩
          · exact ⟨later, by simp⟩
        · rw [hl, hc]
          simp only [hs, if_false]
          split
          · exact ⟨[c] ++ later, by simp⟩
          · exact ⟨later, by simp⟩

/-! ### Runs of lines -/

theorem slice_mid (a x b : Str) (hx : x ≠ []) :
    slice (a ++ x ++ b) a.length ((a.length : Int) + x.length - 1) = some x.dropLast := by
  have hl : 1 ≤ x.length := List.length_pos.mpr hx
  unfold slice
  rw [if_pos (by simp only [List.length_append]; push_cast; omega)]
  have e1 : ((a.length : Int)).toNat = a.length := by simp
  have e2 : ((a.length : Int) + x.length - 1).toNat - a.length = x.length - 1 := by omega
  rw [e1, e2, List.append_assoc, List.drop_left, List.take_append_of_le_length (by omega),
    List.dropLast_eq_take]

theorem parseLoop_diffLines (dat : Str) (ds : List Str) (st : ParseState)
    (hreg : st.topLevelCommentStart = 0) (hgate : st.foundFirstHunk = true)
    (hcs : st.commentStart = -1)
    (hds : ∀ d ∈ ds, isDiffLine d = true ∧ '\n' ∉ d) :
    parseLoop dat (ds.map (fun l => l ++ ['\n'])) st =
      some { st with off := st.off + (joinLines ds).length, num := st.num + ds.length } := by
  induction ds generalizing st with
  | nil => simp [parseLoop, joinLines]
  | cons d ds ih =>
    obtain ⟨hd, hn⟩ := hds d (by simp)
    rw [List.map_cons, parseLoop_cons _ _ _ _ (by simp),
      parseLine_diff _ _ _ (by rw [trimRightNL_addNL _ hn]; exact hd) hreg hgate]
    simp only [Option.bind]
    rw [ih]
    · simp only [joinLines, List.length_append, List.length_cons, List.length_nil, hcs]
      congr 2
      · ring
      · omega
    · exact hreg
    · exact hgate
    · rfl
    · exact fun q hq => hds q (by simp [hq])

theorem parseLoop_regionLines (dat : Str) (xs : List Str) (st : ParseState)
    (hreg : st.topLevelCommentStart ≠ 0) (hcs : st.commentStart = -1)
    (hxs : ∀ x ∈ xs, x ≠ topLevelStartMarker ∧ x ≠ topLevelEndMarker ∧ '\n' ∉ x) :
    parseLoop dat (xs.map (fun l => l ++ ['\n'])) st =
      some { st with off := st.off + (joinLines xs).length } := by
  induction xs generalizing st with
  | nil => simp [parseLoop, joinLines]
  | cons x xs ih =>
    obtain ⟨h1, h2, hn⟩ := hxs x (by simp)
    rw [List.map_cons, parseLoop_cons _ _ _ _ (by simp),
      parseLine_region _ _ _ (by rw [trimRightNL_addNL _ hn]; exact h1)
        (by rw [trimRightNL_addNL _ hn]; exact h2) hreg]
    simp only [Option.bind]
    rw [ih]
    · simp only [joinLines, List.length_append, List.length_cons, List.length_nil, hcs]
      congr 2
      push_cast; ring
    · exact hreg
    · rfl
    · exact fun q hq => hxs q (by simp [hq])

theorem parseLoop_extend (dat : Str) (run : List Str) (st : ParseState)
    (C : List DraftReviewComment) (cm : DraftReviewComment) (n : Nat)
    (hs : Safe dat st (run.flatten.length + n))
    (hreg : st.topLevelCommentStart = 0) (hgate : st.foundFirstHunk = true)
    (hcs : st.commentStart ≠ -1) (hC : st.review.Comments = C ++ [cm])
    (hrun : ∀ p ∈ run, p ≠ [] ∧ isCommentLine (trimRightNL p) = true) :
    ∃ b, (if run = [] then cm.Body
          else slice dat st.commentStart (st.off + run.flatten.length - 1)) = b ∧
      (cm.Body ≠ none → b ≠ none) ∧
      parseLoop dat run st =
        some { st with off := st.off + run.flatten.length, review := { st.review with Comments := C ++ [{ cm with Body := b }] } } := by
  induction run generalizing st cm with
  | nil =>
    refine ⟨cm.Body, rfl, id, ?_⟩
    simp [parseLoop, ← hC]
  | cons p ps ih =>
    obtain ⟨hp, hcl⟩ := hrun p (by simp)
    have hs' : Safe dat st (p.length + (ps.flatten.length + n)) := by
      simpa [Nat.add_assoc] using hs
    have hend : trimRightNL p ≠ topLevelEndMarker := (commentLine_facts _ hcl).2.1
    obtain ⟨st1, e1, s1, _⟩ := parseLine_safe dat st p _ hs' hp hend
    have e1' := e1
    rw [parseLine_comment _ _ _ hcl hreg hgate] at e1
    simp only [hcs, if_false, hC, setLastBody_concat] at e1
    cases hsl : slice dat st.commentStart (st.off + p.length - 1) with
    | none => rw [hsl] at e1; simp at e1
    | some body =>
      rw [hsl] at e1
      simp only [Option.bind, Option.map, Option.some.injEq] at e1
      subst e1
      obtain ⟨b, hb, hbn, hl⟩ := ih _ { cm with Body := some body } s1 hreg hgate hcs rfl
        (fun q hq => hrun q (by simp [hq]))
      refine ⟨b, ?_, fun _ => hbn (by simp), ?_⟩
      · rw [← hb]
        by_cases hps : ps = []
        · subst hps
          simp only [if_true, List.flatten_cons, List.flatten_nil, List.append_nil,
            reduceCtorEq, if_false]
          exact hsl
        · simp only [hps, if_false, reduceCtorEq, List.flatten_cons, List.length_append]
          congr 1
          push_cast; ring
      · rw [parseLoop_cons _ _ _ _ hp, e1']
        simp only [Option.bind]
        rw [hl]
        simp only [List.flatten_cons, List.length_append]
        congr 2
        push_cast; ring

theorem parseLoop_newRun (dat : Str) (p : Str) (ps : List Str) (st : ParseState) (n : Nat)
    (hs : Safe dat st ((p :: ps).flatten.length + n))
    (hreg : st.topLevelCommentStart = 0) (hgate : st.foundFirstHunk = true)
    (hcs : st.commentStart = -1)
    (hrun : ∀ q ∈ p :: ps, q ≠ [] ∧ isCommentLine (trimRightNL q) = true) :
    ∃ body,
      slice dat (st.off + p.length - (trimRightNL p).length - 1)
        (st.off + (p :: ps).flatten.length - 1) = some body ∧
      parseLoop dat (p :: ps) st =
        some { st with commentStart := st.off + p.length - (trimRightNL p).length - 1, off := st.off + (p :: ps).flatten.length, review := { st.review with Comments := st.review.Comments ++ [{ Path := st.file, Position := st.num, Body := some body }] } } := by
  obtain ⟨hp, hcl⟩ := hrun p (by simp)
  have hs' : Safe dat st (p.length + (ps.flatten.length + n)) := by
    simpa [Nat.add_assoc] using hs
  have hend : trimRightNL p ≠ topLevelEndMarker := (commentLine_facts _ hcl).2.1
  have hoff : 1 ≤ st.off := hs.2.2.1 hgate
  have htrim := trimRightNL_length_le p
  obtain ⟨st1, e1, s1, _⟩ := parseLine_safe dat st p _ hs' hp hend
  have e1' := e1
  rw [parseLine_comment _ _ _ hcl hreg hgate] at e1
  simp only [hcs, if_true, setLastBody_concat] at e1
  cases hsl : slice dat (st.off + p.length - (trimRightNL p).length - 1)
      (st.off + p.length - 1) with
  | none => rw [hsl] at e1; simp at e1
  | some body0 =>
    rw [hsl] at e1
    simp only [Option.bind, Option.map, Option.some.injEq, makeDraftReviewComment] at e1
    subst e1
    obtain ⟨b, hb, hbn, hl⟩ := parseLoop_extend dat ps _ st.review.Comments
      { Path := st.file, Position := st.num, Body := some body0 } n s1 hreg hgate
      (by show st.off + p.length - (trimRightNL p).length - 1 ≠ -1; omega) rfl
      (fun q hq => hrun q (by simp [hq]))
    have hbs : b ≠ none := hbn (by simp)
    obtain ⟨body, rfl⟩ := Option.ne_none_iff_exists'.mp hbs
    refine ⟨body, ?_, ?_⟩
    · rw [← hb]
      by_cases hps : ps = []
      · subst hps
        simp only [if_true, List.flatten_cons, List.flatten_nil, List.append_nil]
        exact hsl
      · simp only [hps, if_false, List.flatten_cons, List.length_append]
        congr 1
        push_cast; ring
    · rw [parseLoop_cons _ _ _ _ hp, e1']
      simp only [Option.bind]
      rw [hl]
      simp only [List.flatten_cons, List.length_append]
      congr 2
      push_cast; ring

theorem joinLines_append (a b : List Str) : joinLines (a ++ b) = joinLines a ++ joinLines b := by
  induction a with
  | nil => rfl
  | cons l ls ih => simp [joinLines, ih]

theorem joinLines_cons (l : Str) (ls : List Str) :
    joinLines (l :: ls) = l ++ '\n' :: joinLines ls := rfl

theorem joinLines_length_cons (l : Str) (ls : List Str) :
    (joinLines (l :: ls)).length = l.length + 1 + (joinLines ls).length := by
  simp [joinLines_cons]; omega

theorem joinLines_length_append (a b : List Str) :
    (joinLines (a ++ b)).length = (joinLines a).length + (joinLines b).length := by
  simp [joinLines_append]

theorem joinLines_ne_nil (ls : List Str) (h : ls ≠ []) : joinLines ls ≠ [] := by
  cases ls with
  | nil => exact absurd rfl h
  | cons l ls => simp [joinLines]

/-- A hunk header that opens the gate, then diff lines, then a run of comment
lines: the loop appends one comment at the current file, whose position is the
number of diff lines and whose body is the text of the run without its last
newline. -/
theorem parseLoop_hunk (dat A hdr : Str) (ds run : List Str) (rest : Str) (st : ParseState)
    (hdat : dat = A ++ joinLines (hdr :: ds ++ run) ++ rest)
    (hoff : st.off = A.length) (hreg : st.topLevelCommentStart = 0)
    (hgate : st.foundFirstHunk = false)
    (hhdr : hasPrefix hdr hunkStart = true) (hhn : '\n' ∉ hdr)
    (hds : ∀ d ∈ ds, isDiffLine d = true ∧ '\n' ∉ d)
    (hrun : ∀ c ∈ run, isCommentLine c = true ∧ '\n' ∉ c) (hne : run ≠ []) :
    parseLoop dat ((hdr :: ds ++ run).map (fun l => l ++ ['\n'])) st =
      some { st with foundFirstHunk := true, num := ds.length, commentStart := A.length + (joinLines (hdr :: ds)).length, off := A.length + (joinLines (hdr :: ds ++ run)).length, review := { st.review with Comments := st.review.Comments ++ [{ Path := st.file, Position := ds.length, Body := some (joinLines run).dropLast }] } } := by
  obtain ⟨c, cs, rfl⟩ := List.exists_cons_of_ne_nil hne
  have hc := hrun c (by simp)
  simp only [List.cons_append, List.map_cons, List.map_append]
  rw [parseLoop_cons _ _ _ _ (by simp),
    parseLine_firstHunk _ _ _ (by rw [trimRightNL_addNL _ hhn]; exact hhdr) hreg hgate]
  simp only [Option.bind]
  rw [parseLoop_append _ _ _ _ (by simp), parseLoop_diffLines _ _ _ (by exact hreg) (by rfl) (by rfl) hds]
  simp only [Option.bind]
  have hlen : (dat.length : Int) = A.length + (hdr.length + 1 + (joinLines ds).length +
      (joinLines (c :: cs)).length) + rest.length := by
    rw [hdat]
    simp only [List.length_append, joinLines_length_append, joinLines_length_cons]
    push_cast; ring
  have hfl : ((c ++ ['\n']) :: List.map (fun l => l ++ ['\n']) cs).flatten.length =
      (joinLines (c :: cs)).length := by
    rw [← List.map_cons (fun l => l ++ ['\n']), flatten_map_addNL]
  obtain ⟨body, hsl, hl⟩ := parseLoop_newRun dat (c ++ ['\n']) (cs.map (fun l => l ++ ['\n']))
    { st with commentStart := -1, off := st.off + (hdr ++ ['\n']).length + (joinLines ds).length, foundFirstHunk := true, num := 0 + ds.length }
    rest.length
    (by
      refine ⟨?_, ?_, ?_, ?_⟩
      · simp only [hoff, List.length_append]; positivity
      · rw [hfl, hlen]
        simp only [hoff, List.length_append, List.length_cons, List.length_nil]
        push_cast; omega
      · intro _
        simp only [hoff, List.length_append, List.length_cons, List.length_nil]
        push_cast; omega
      · intro h; exact absurd rfl h)
    hreg rfl rfl
    (by
      intro q hq
      rcases List.mem_cons.mp hq with rfl | hq
      · exact ⟨by simp, by rw [trimRightNL_addNL _ hc.2]; exact hc.1⟩
      · obtain ⟨x, hx, rfl⟩ := List.mem_map.mp hq
        have := hrun x (by simp [hx])
        exact ⟨by simp, by rw [trimRightNL_addNL _ this.2]; exact this.1⟩)
  rw [hl]
  rw [hfl, trimRightNL_addNL _ hc.2] at hsl
  have hsl2 := slice_mid (A ++ joinLines (hdr :: ds)) (joinLines (c :: cs)) rest
    (joinLines_ne_nil _ (by simp))
  have hdat2 : dat = A ++ joinLines (hdr :: ds) ++ joinLines (c :: cs) ++ rest := by
    rw [hdat, joinLines_append]; simp
  rw [← hdat2] at hsl2
  have e1 : st.off + ((hdr ++ ['\n']).length : Int) + (joinLines ds).length +
      ((c ++ ['\n']).length : Int) - (c.length : Int) - 1 =
      ((A ++ joinLines (hdr :: ds)).length : Int) := by
    simp only [hoff, joinLines_length_cons, List.length_append, List.length_cons,
      List.length_nil]
    push_cast; ring
  have e2 : st.off + ((hdr ++ ['\n']).length : Int) + (joinLines ds).length +
      ((joinLines (c :: cs)).length : Int) - 1 =
      ((A ++ joinLines (hdr :: ds)).length : Int) + (joinLines (c :: cs)).length - 1 := by
    simp only [hoff, joinLines_length_cons, List.length_append, List.length_cons,
      List.length_nil]
    push_cast; ring
  simp only [] at hsl
  rw [e1, e2, hsl2] at hsl
  simp only [Option.some.injEq] at hsl
  subst hsl
  simp only [hfl, trimRightNL_addNL _ hc.2, Nat.zero_add]
  congr 2
  · simp only [hoff, joinLines_length_cons, List.length_append, List.length_cons,
      List.length_nil]
    push_cast; ring
  · simp only [hoff, joinLines_length_cons, joinLines_length_append, List.length_append,
      List.length_cons, List.length_nil]
    push_cast; ring

theorem map_addNL_ne_nil (ls : List Str) :
    ∀ p ∈ ls.map (fun l => l ++ ['\n']), p ≠ [] := by
  intro p hp
  obtain ⟨x, _, rfl⟩ := List.mem_map.mp hp
  simp

/-- The document made of a hunk header, diff lines and a run of comment lines. -/
theorem parseFile_hunk (hdr : Str) (ds run : List Str)
    (hhdr : hasPrefix hdr hunkStart = true) (hhn : '\n' ∉ hdr)
    (hds : ∀ d ∈ ds, isDiffLine d = true ∧ '\n' ∉ d)
    (hrun : ∀ c ∈ run, isCommentLine c = true ∧ '\n' ∉ c) (hne : run ≠ []) :
    parseFile (joinLines (hdr :: ds ++ run)) =
      some { CommitID := none, Body := none, Comments := [{ Path := [], Position := ds.length, Body := some (joinLines run).dropLast }] } := by
  have hall : ∀ l ∈ hdr :: ds ++ run, '\n' ∉ l := by
    intro l hl
    simp only [List.cons_append, List.mem_cons, List.mem_append] at hl
    rcases hl with rfl | hl | hl
    · exact hhn
    · exact (hds l hl).2
    · exact (hrun l hl).2
  have hsp := splitAfterNL_joinLines (hdr :: ds ++ run) [] hall
  rw [List.append_nil] at hsp
  have hl := parseLoop_hunk (joinLines (hdr :: ds ++ run)) [] hdr ds run [] initState
    (by simp) rfl rfl rfl hhdr hhn hds hrun hne
  unfold parseFile
  rw [hsp, parseLoop_append _ _ _ _ (map_addNL_ne_nil _), hl]
  simp [splitAfterNL, parseLoop, initState]

theorem splitAfterNL_piece (s : Str) :
    ∀ p ∈ splitAfterNL s, ∃ l, '\n' ∉ l ∧ (p = l ∨ p = l ++ ['\n']) := by
  induction s with
  | nil =>
    intro p hp
    simp only [splitAfterNL, List.mem_singleton] at hp
    exact ⟨[], by simp, Or.inl hp⟩
  | cons c cs ih =>
    intro p hp
    simp only [splitAfterNL] at hp
    split at hp
    · rename_i hc
      rcases List.mem_cons.mp hp with rfl | hp
      · exact ⟨[], by simp, Or.inr (by simp [hc])⟩
      · exact ih p hp
    · rename_i hc
      split at hp
      · rename_i h; exact absurd h (splitAfterNL_ne_nil cs)
      · rename_i l ls h
        rcases List.mem_cons.mp hp with rfl | hp
        · obtain ⟨l', hl', hp'⟩ := ih l (by rw [h]; simp)
          refine ⟨c :: l', ?_, ?_⟩
          · simp only [List.mem_cons, not_or]
            exact ⟨fun e => hc e.symm, hl'⟩
          · rcases hp' with rfl | rfl
            · exact Or.inl rfl
            · exact Or.inr rfl
        · exact ih p (by rw [h]; simp [hp])

theorem splitAfterNL_trim_noNL (s : Str) : ∀ p ∈ splitAfterNL s, '\n' ∉ trimRightNL p := by
  intro p hp
  obtain ⟨l, hl, rfl | rfl⟩ := splitAfterNL_piece s p hp
  · rw [trimRightNL_noNL _ hl]; exact hl
  · rw [trimRightNL_addNL _ hl]; exact hl

theorem splitAfterNL_dropLast_ne_nil (s : Str) : ∀ p ∈ (splitAfterNL s).dropLast, p ≠ [] := by
  induction s with
  | nil => simp [splitAfterNL]
  | cons c cs ih =>
    intro p hp
    simp only [splitAfterNL] at hp
    split at hp
    · rw [List.dropLast_cons_of_ne_nil (splitAfterNL_ne_nil cs)] at hp
      rcases List.mem_cons.mp hp with rfl | hp
      · simp
      · exact ih p hp
    · split at hp
      · rename_i h; exact absurd h (splitAfterNL_ne_nil cs)
      · rename_i l ls h
        rw [h] at ih
        cases ls with
        | nil => simp at hp
        | cons m ms =>
          rw [List.dropLast_cons_of_ne_nil (by simp)] at hp
          rcases List.mem_cons.mp hp with rfl | hp
          · simp
          · exact ih p (by rw [List.dropLast_cons_of_ne_nil (by simp)]; simp [hp])

theorem splitAfterNL_init_ne_nil (s : Str) (l1 l2 : List Str)
    (h : splitAfterNL s = l1 ++ l2) (h2 : l2 ≠ []) : ∀ p ∈ l1, p ≠ [] := by
  intro p hp
  apply splitAfterNL_dropLast_ne_nil s
  rw [h, List.dropLast_append_of_ne_nil _ h2]
  exact List.mem_append_left _ hp

theorem parseLine_safe_inv (dat : Str) (st st' : ParseState) (raw : Str) (n : Nat)
    (h : parseLine dat st raw = some st')
    (hs : Safe dat st (raw.length + n)) (hraw : raw ≠ []) : Safe dat st' n := by
  by_cases he : trimRightNL raw = topLevelEndMarker
  · rw [parseLine_end _ _ _ he] at h
    cases hsl : slice dat st.topLevelCommentStart (st.off + raw.length - 49 - 2) with
    | none => rw [hsl] at h; simp at h
    | some body =>
      rw [hsl] at h
      simp only [Option.map, Option.some.injEq] at h
      subst h
      obtain ⟨h0, h1, h2, h3⟩ := hs
      have hlen : 1 ≤ raw.length := List.length_pos.mpr hraw
      push_cast at h1
      refine ⟨?_, ?_, ?_, ?_⟩
      · show 0 ≤ st.off + (raw.length : Int); omega
      · show st.off + (raw.length : Int) + n ≤ dat.length; omega
      · intro _; show 1 ≤ st.off + (raw.length : Int); omega
      · intro hc; exact absurd rfl hc
  · obtain ⟨st'', e, s, _⟩ := parseLine_safe dat st raw n hs hraw he
    rw [e] at h
    cases h
    exact s

theorem parseLoop_safe_inv (dat : Str) (pieces : List Str) (st st' : ParseState) (n : Nat)
    (h : parseLoop dat pieces st = some st') (hne : ∀ p ∈ pieces, p ≠ [])
    (hs : Safe dat st (pieces.flatten.length + n)) : Safe dat st' n := by
  induction pieces generalizing st with
  | nil => simp only [parseLoop, Option.some.injEq] at h; subst h; simpa using hs
  | cons p ps ih =>
    have hp : p ≠ [] := hne p (by simp)
    rw [parseLoop_cons _ _ _ _ hp] at h
    cases e : parseLine dat st p with
    | none => rw [e] at h; simp at h
    | some st1 =>
      rw [e] at h
      have hs' : Safe dat st (p.length + (ps.flatten.length + n)) := by
        simpa [Nat.add_assoc] using hs
      exact ih st1 h (fun q hq => hne q (by simp [hq])) (parseLine_safe_inv _ _ _ _ _ e hs' hp)

theorem findLitRest_eq_none_noNL (lit l : Str) (hn : '\n' ∉ l) (h : findLitRest lit l = none) :
    lit.isPrefixOf l = false := by
  unfold findLitRest at h
  split at h
  · simp at h
  · rename_i hc
    rw [not_and_or] at hc
    rcases hc with hc | hc
    · exact Bool.eq_false_iff.mpr hc
    · exact absurd (fun hm => hn (List.mem_of_mem_drop hm)) hc

/-- A line that is not a comment line closes the current comment and leaves the
comment list as it is. -/
theorem parseLine_nonComment (dat : Str) (st st' : ParseState) (raw : Str)
    (h : parseLine dat st raw = some st') (hn : '\n' ∉ trimRightNL raw)
    (hc : isCommentLine (trimRightNL raw) = false) :
    st'.review.Comments = st.review.Comments ∧ st'.commentStart = -1 := by
  unfold parseLine at h
  simp only [] at h
  repeat' split at h
  all_goals first | contradiction | (cases h; exact ⟨rfl, rfl⟩) | skip
  all_goals
    exfalso
    have h3 : commitStart (trimRightNL raw) = none := by assumption
    have h5 : fileStart (trimRightNL raw) = none := by assumption
    have h4 : ¬ hasPrefix (trimRightNL raw) diffStart = true := by assumption
    have := findLitRest_eq_none_noNL commitLit _ hn h3
    have := findLitRest_eq_none_noNL fileLit _ hn h5
    simp only [hasPrefix] at h4
    simp_all [isCommentLine]

theorem joinLines_nil : joinLines [] = [] := rfl

/-! ### The top-level region -/

/-- The top-level region: text `xs` between the markers, after lines `pre`
that contain no marker, and before text `post` that contains no marker. -/
theorem parseFile_region (pre xs : List Str) (post : Str)
    (hpre : ∀ l ∈ pre, l ≠ topLevelStartMarker ∧ l ≠ topLevelEndMarker ∧ '\n' ∉ l)
    (hxs : ∀ x ∈ xs, x ≠ topLevelStartMarker ∧ x ≠ topLevelEndMarker ∧ '\n' ∉ x)
    (hne : xs ≠ [])
    (hpost : ∀ l ∈ docLines post, l ≠ topLevelEndMarker) :
    ∃ r, parseFile (joinLines (pre ++ topLevelStartMarker :: (xs ++ [topLevelEndMarker])) ++ post)
        = some r ∧ r.Body = some (joinLines xs).dropLast := by
  have hall : ∀ l ∈ pre ++ topLevelStartMarker :: (xs ++ [topLevelEndMarker]), '\n' ∉ l := by
    intro l hl
    rcases List.mem_append.mp hl with hl | hl
    · exact (hpre l hl).2.2
    · rcases List.mem_cons.mp hl with rfl | hl
      · exact startMarker_noNL
      · rcases List.mem_append.mp hl with hl | hl
        · exact (hxs l hl).2.2
        · rw [List.mem_singleton] at hl
          subst hl
          exact endMarker_noNL
  generalize hdat : joinLines (pre ++ topLevelStartMarker :: (xs ++ [topLevelEndMarker])) ++ post
    = dat
  have hsp := splitAfterNL_joinLines _ post hall
  rw [hdat] at hsp
  have hdlen : (dat.length : Int) = (joinLines pre).length + 50 + (joinLines xs).length + 50
      + post.length := by
    rw [← hdat]
    simp only [List.length_append, joinLines_length_append, joinLines_length_cons,
      startMarker_length, endMarker_length, joinLines_nil, List.length_nil]
    push_cast; ring
  have hdat2 : dat = (joinLines pre ++ (topLevelStartMarker ++ ['\n'])) ++ joinLines xs ++
      ((topLevelEndMarker ++ ['\n']) ++ post) := by
    rw [← hdat]
    simp [joinLines_append, joinLines_cons, joinLines]
  -- the lines in front of the start marker
  have hs0 : Safe dat initState ((pre.map (fun l => l ++ ['\n'])).flatten.length +
      (50 + (joinLines xs).length + 50 + post.length)) := by
    refine ⟨by simp [initState], ?_, by simp [initState], by simp [initState]⟩
    rw [flatten_map_addNL, hdlen]
    simp only [initState]
    push_cast; omega
  obtain ⟨st1, e1, s1, b1⟩ := parseLoop_safe dat (pre.map (fun l => l ++ ['\n'])) initState _ hs0
    (by
      intro p hp
      obtain ⟨x, hx, rfl⟩ := List.mem_map.mp hp
      rw [trimRightNL_addNL _ (hpre x hx).2.2]
      exact (hpre x hx).2.1)
  have o1 : st1.off = (joinLines pre).length := by
    rw [parseLoop_off _ _ _ _ e1 (map_addNL_ne_nil _), flatten_map_addNL]
    simp [initState]
  -- the whole loop
  unfold parseFile
  rw [hsp, List.map_append, List.map_cons, List.map_append, List.append_assoc,
    parseLoop_append _ _ _ _ (map_addNL_ne_nil _), e1]
  simp only [Option.bind, List.cons_append]
  rw [parseLoop_cons _ _ _ _ (by simp),
    parseLine_start _ _ _ (trimRightNL_addNL _ startMarker_noNL)]
  simp only [Option.bind]
  rw [List.append_assoc, parseLoop_append _ _ _ _ (map_addNL_ne_nil _),
    parseLoop_regionLines _ _ _
      (by
        show st1.off + ((topLevelStartMarker ++ ['\n']).length : Int) ≠ 0
        rw [o1]; simp only [List.length_append, startMarker_length]; push_cast
        have : (0 : Int) ≤ (joinLines pre).length := by positivity
        simp only [List.length_cons, List.length_nil]; omega)
      (by rfl) hxs]
  simp only [Option.bind, List.map_cons, List.map_nil, List.cons_append, List.nil_append]
  rw [parseLoop_cons _ _ _ _ (by simp),
    parseLine_end _ _ _ (trimRightNL_addNL _ endMarker_noNL)]
  have hsl := slice_mid (joinLines pre ++ (topLevelStartMarker ++ ['\n'])) (joinLines xs)
    ((topLevelEndMarker ++ ['\n']) ++ post) (joinLines_ne_nil _ hne)
  rw [← hdat2] at hsl
  have e2 : st1.off + ((topLevelStartMarker ++ ['\n']).length : Int) =
      ((joinLines pre ++ (topLevelStartMarker ++ ['\n'])).length : Int) := by
    rw [o1]; simp only [List.length_append]; push_cast; ring
  have e3 : st1.off + ((topLevelStartMarker ++ ['\n']).length : Int) + (joinLines xs).length +
      ((topLevelEndMarker ++ ['\n']).length : Int) - 49 - 2 =
      ((joinLines pre ++ (topLevelStartMarker ++ ['\n'])).length : Int) +
        (joinLines xs).length - 1 := by
    rw [o1]
    simp only [List.length_append, endMarker_length, List.length_cons, List.length_nil]
    push_cast; ring
  simp only []
  rw [e3, e2, hsl]
  simp only [Option.map, Option.bind]
  -- the text after the end marker
  obtain ⟨st5, e5, _, b5⟩ := parseLoop_safe dat (splitAfterNL post)
    { st1 with commentStart := -1, off := (joinLines pre ++ (topLevelStartMarker ++ ['\n'])).length + (joinLines xs).length + ((topLevelEndMarker ++ ['\n']).length : Int), review := { st1.review with Body := some (joinLines xs).dropLast }, topLevelCommentStart := 0 }
    0
    (by
      rw [splitAfterNL_join]
      refine ⟨?_, ?_, ?_, ?_⟩
      · show (0 : Int) ≤ _; positivity
      · show _ + _ ≤ _
        rw [hdlen]
        simp only [List.length_append, startMarker_length, endMarker_length, List.length_cons,
          List.length_nil]
        push_cast; omega
      · intro _
        show (1 : Int) ≤ _
        simp only [List.length_append, startMarker_length, endMarker_length, List.length_cons,
          List.length_nil]
        push_cast; omega
      · intro h; exact absurd rfl h)
    (fun p hp => hpost _ (List.mem_map_of_mem _ hp))
  erw [e5]
  exact ⟨st5.review, rfl, b5⟩

/-! ### Adjacent markers -/

/-- The start marker line directly followed by the end marker line: the slice
taken at the end marker has its low bound one above its high bound. -/
theorem parseLoop_adjacent_markers (dat : Str) (rest : List Str) (st : ParseState) :
    parseLoop dat ((topLevelStartMarker ++ ['\n']) :: (topLevelEndMarker ++ ['\n']) :: rest) st
      = none := by
  rw [parseLoop_cons _ _ _ _ (by simp),
    parseLine_start _ _ _ (trimRightNL_addNL _ startMarker_noNL)]
  simp only [Option.bind]
  rw [parseLoop_cons _ _ _ _ (by simp),
    parseLine_end _ _ _ (trimRightNL_addNL _ endMarker_noNL)]
  have : slice dat (st.off + ((topLevelStartMarker ++ ['\n']).length : Int))
      (st.off + ((topLevelStartMarker ++ ['\n']).length : Int) +
        ((topLevelEndMarker ++ ['\n']).length : Int) - 49 - 2) = none := by
    rw [slice_eq_none_iff]
    simp only [List.length_append, startMarker_length, endMarker_length, List.length_cons,
      List.length_nil]
    push_cast
    omega
  simp only []
  rw [this]
  rfl

theorem parseFile_adjacent_markers (pre : List Str) (post : Str) (hpre : ∀ l ∈ pre, '\n' ∉ l) :
    parseFile (joinLines (pre ++ [topLevelStartMarker, topLevelEndMarker]) ++ post) = none := by
  have hall : ∀ l ∈ pre ++ [topLevelStartMarker, topLevelEndMarker], '\n' ∉ l := by
    intro l hl
    rcases List.mem_append.mp hl with hl | hl
    · exact hpre l hl
    · rcases List.mem_cons.mp hl with rfl | hl
      · exact startMarker_noNL
      · rw [List.mem_singleton] at hl
        subst hl
        exact endMarker_noNL
  unfold parseFile
  rw [splitAfterNL_joinLines _ post hall, List.map_append, List.append_assoc,
    parseLoop_append _ _ _ _ (map_addNL_ne_nil _)]
  cases parseLoop (joinLines (pre ++ [topLevelStartMarker, topLevelEndMarker]) ++ post)
      (pre.map (fun l => l ++ ['\n'])) initState with
  | none => rfl
  | some st1 =>
    simp only [Option.bind, List.map_cons, List.map_nil, List.cons_append, List.nil_append]
    rw [parseLoop_adjacent_markers]
    rfl

/-- Every text is made of complete lines followed by a last, unterminated
line. -/
theorem exists_joinLines (s : Str) :
    ∃ ls last, (∀ l ∈ ls, '\n' ∉ l) ∧ '\n' ∉ last ∧ s = joinLines ls ++ last := by
  induction s with
  | nil => exact ⟨[], [], by simp, by simp, rfl⟩
  | cons c cs ih =>
    obtain ⟨ls, last, h1, h2, h3⟩ := ih
    by_cases hc : c = '\n'
    · refine ⟨[] :: ls, last, ?_, h2, ?_⟩
      · intro l hl
        rcases List.mem_cons.mp hl with rfl | hl
        · simp
        · exact h1 l hl
      · rw [h3, hc]; rfl
    · cases ls with
      | nil =>
        refine ⟨[], c :: last, by simp, ?_, ?_⟩
        · simp only [List.mem_cons, not_or]
          exact ⟨fun e => hc e.symm, h2⟩
        · rw [h3]; rfl
      | cons l ls =>
        refine ⟨(c :: l) :: ls, last, ?_, h2, ?_⟩
        · intro x hx
          rcases List.mem_cons.mp hx with rfl | hx
          · simp only [List.mem_cons, not_or]
            exact ⟨fun e => hc e.symm, h1 l (by simp)⟩
          · exact h1 x (by simp [hx])
        · rw [h3]; rfl

/-- A text that ends with a newline is made of complete lines. -/
theorem exists_joinLines_of_endsNL (s : Str) :
    ∃ ls, (∀ l ∈ ls, '\n' ∉ l) ∧ s ++ ['\n'] = joinLines ls := by
  obtain ⟨ls, last, h1, h2, h3⟩ := exists_joinLines (s ++ ['\n'])
  cases hl : last.getLast? with
  | none =>
    rw [List.getLast?_eq_none_iff] at hl
    subst hl
    exact ⟨ls, h1, by simpa using h3⟩
  | some a =>
    exfalso
    have hne : last ≠ [] := by rintro rfl; simp at hl
    have e := congrArg List.getLast? h3
    rw [List.getLast?_append_of_ne_nil _ hne, hl] at e
    simp at e
    have : a ∈ last := List.mem_of_getLast?_eq_some hl
    exact h2 (e ▸ this)

/-- The same, for any text in front of the markers that ends with a newline. -/
theorem parseFile_adjacent_markers_text (pre post : Str) :
    parseFile ((pre ++ ['\n']) ++ (topLevelStartMarker ++ ['\n']) ++
      (topLevelEndMarker ++ ['\n']) ++ post) = none := by
  obtain ⟨ls, h1, h2⟩ := exists_joinLines_of_endsNL pre
  have := parseFile_adjacent_markers ls post h1
  rw [joinLines_append, ← h2] at this
  simpa [joinLines_cons, joinLines_nil] using this

/-! ### The document written by `printPR` -/

theorem templateHead_eq : templateHead = templateHead.dropLast ++ ['\n'] := by rfl

theorem templateTail_eq : templateTail = '\n' :: templateTail.tail := by rfl

theorem printPR_nil_eq (trimSpace : Str → Str) (projectOwner projectRepo : Str)
    (pr : PullRequest) :
    printPR trimSpace projectOwner projectRepo pr [] ++ [] =
      (printPRHeader trimSpace projectOwner projectRepo pr ++ "\n".toList ++
          templateHead.dropLast) ++ ['\n'] ++
        (topLevelStartMarker ++ ['\n']) ++ (topLevelEndMarker ++ ['\n']) ++
        templateTail.tail := by
  unfold printPR
  generalize printPRHeader trimSpace projectOwner projectRepo pr = hdr
  conv_lhs => rw [templateHead_eq, templateTail_eq]
  simp [List.append_assoc]

/-- A hunk header, diff lines and a last comment line that has no line break:
one comment, at the number of diff lines. -/
theorem parseFile_hunk_unterminated (hdr : Str) (ds : List Str) (c : Str)
    (hhdr : hasPrefix hdr hunkStart = true) (hhn : '\n' ∉ hdr)
    (hds : ∀ d ∈ ds, isDiffLine d = true ∧ '\n' ∉ d)
    (hc : isCommentLine c = true) (hcn : '\n' ∉ c) (hne : c ≠ []) :
    ∃ body, parseFile (joinLines (hdr :: ds) ++ c) =
      some { CommitID := none, Body := none, Comments := [{ Path := [], Position := ds.length, Body := some body }] } := by
  have hall : ∀ l ∈ hdr :: ds, '\n' ∉ l := by
    intro l hl
    rcases List.mem_cons.mp hl with rfl | hl
    · exact hhn
    · exact (hds l hl).2
  generalize hdat : joinLines (hdr :: ds) ++ c = dat
  have hsp := splitAfterNL_joinLines (hdr :: ds) c hall
  rw [hdat, splitAfterNL_noNL _ hcn] at hsp
  have hdlen : (dat.length : Int) = hdr.length + 1 + (joinLines ds).length + c.length := by
    rw [← hdat]
    simp only [List.length_append, joinLines_length_cons]
    push_cast; ring
  obtain ⟨body, _, hl⟩ := parseLoop_newRun dat c []
    { initState with commentStart := -1, off := initState.off + (hdr ++ ['\n']).length + (joinLines ds).length, foundFirstHunk := true, num := 0 + ds.length }
    0
    (by
      have e : initState.off = 0 := rfl
      refine ⟨?_, ?_, ?_, ?_⟩
      · show (0 : Int) ≤ initState.off + _ + _
        rw [e]; positivity
      · show initState.off + _ + _ + _ ≤ _
        rw [e, hdlen]
        simp only [List.length_append, List.length_cons, List.length_nil, List.flatten_cons,
          List.flatten_nil, List.append_nil]
        push_cast; omega
      · intro _
        show (1 : Int) ≤ initState.off + _ + _
        rw [e]
        simp only [List.length_append, List.length_cons, List.length_nil]
        push_cast; omega
      · intro h; exact absurd rfl h)
    rfl rfl rfl
    (by
      intro q hq
      rw [List.mem_singleton] at hq
      subst hq
      exact ⟨hne, by rw [trimRightNL_noNL _ hcn]; exact hc⟩)
  refine ⟨body, ?_⟩
  unfold parseFile
  rw [hsp, List.map_cons, List.cons_append, parseLoop_cons _ _ _ _ (by simp),
    parseLine_firstHunk _ _ _ (by rw [trimRightNL_addNL _ hhn]; exact hhdr) rfl rfl]
  simp only [Option.bind]
  rw [parseLoop_append _ _ _ _ (map_addNL_ne_nil _),
    parseLoop_diffLines _ _ _ (by rfl) (by rfl) (by rfl) hds]
  simp only [Option.bind]
  erw [hl]
  simp [initState]

/-! ### Lines starting with `*`, the closed gate, the commit id -/

/-- What the tests of the loop give on a line whose first byte is `*`. -/
theorem starLine_facts (l : Str) (h : l.head? = some '*') :
    l ≠ topLevelStartMarker ∧ l ≠ topLevelEndMarker ∧ commitStart l = none ∧
    hasPrefix l diffStart = false ∧ fileStart l = none ∧
    ¬ (l.head? = some '+' ∨ l.head? = some '-' ∨ l.head? = some ' ' ∨ l.head? = some '@') := by
  have hhd : ∀ a : Char, a ≠ '*' → l.head? ≠ some a := by
    intro a ha e
    rw [e] at h
    exact ha (Option.some.inj h)
  refine ⟨?_, ?_, ?_, ?_, ?_, ?_⟩
  · intro e; exact hhd '#' (by decide) (e ▸ startMarker_head)
  · intro e; exact hhd '#' (by decide) (e ▸ endMarker_head)
  · apply findLitRest_eq_none
    rw [commitLit_eq]
    exact isPrefixOf_head_ne _ _ _ (hhd 'c' (by decide))
  · unfold hasPrefix
    rw [diffStart_eq]
    exact isPrefixOf_head_ne _ _ _ (hhd 'd' (by decide))
  · apply findLitRest_eq_none
    rw [fileLit_eq]
    exact isPrefixOf_head_ne _ _ _ (hhd '+' (by decide))
  · rintro (e | e | e | e)
    · exact hhd '+' (by decide) e
    · exact hhd '-' (by decide) e
    · exact hhd ' ' (by decide) e
    · exact hhd '@' (by decide) e

theorem parseLine_star (dat : Str) (st : ParseState) (raw : Str)
    (h : (trimRightNL raw).head? = some '*')
    (hreg : st.topLevelCommentStart = 0) (hgate : st.foundFirstHunk = true) :
    parseLine dat st raw = some { st with commentStart := -1, off := st.off + raw.length } := by
  obtain ⟨h1, h2, h3, h4, h5, h6⟩ := starLine_facts _ h
  simp [parseLine, h1, h2, h3, h4, h5, hreg, hgate, h]

/-- While the gate is closed an iteration leaves the comment list alone and
leaves no comment open. -/
theorem parseLine_gate_closed (dat : Str) (st st' : ParseState) (raw : Str)
    (h : parseLine dat st raw = some st') (hgate : st.foundFirstHunk = false) :
    st'.review.Comments = st.review.Comments ∧ st'.commentStart = -1 ∧
    (hasPrefix (trimRightNL raw) hunkStart = false → st'.foundFirstHunk = false) := by
  unfold parseLine at h
  simp only [] at h
  repeat' split at h
  all_goals first
    | contradiction
    | (cases h; exact ⟨rfl, rfl, fun _ => by first | rfl | assumption⟩)
    | (cases h; refine ⟨rfl, rfl, fun hh => ?_⟩; simp_all)
    | (simp_all)

theorem parseLoop_gate_closed (dat : Str) (pieces : List Str) (st st' : ParseState)
    (h : parseLoop dat pieces st = some st') (hgate : st.foundFirstHunk = false)
    (hno : ∀ p ∈ pieces, hasPrefix (trimRightNL p) hunkStart = false) :
    st'.review.Comments = st.review.Comments := by
  induction pieces generalizing st with
  | nil => simp only [parseLoop, Option.some.injEq] at h; subst h; rfl
  | cons p ps ih =>
    by_cases hp : p = []
    · simp only [parseLoop, hp, if_true, Option.some.injEq] at h; subst h; rfl
    · rw [parseLoop_cons _ _ _ _ hp] at h
      cases e : parseLine dat st p with
      | none => rw [e] at h; simp at h
      | some st1 =>
        rw [e] at h
        obtain ⟨hc, _, hg⟩ := parseLine_gate_closed _ _ _ _ e hgate
        rw [ih st1 h (hg (hno p (by simp))) (fun q hq => hno q (by simp [hq])), hc]

theorem parseLine_commit (dat : Str) (st st' : ParseState) (raw : Str)
    (h : parseLine dat st raw = some st') (hoff : 0 ≤ st.off) (hraw : raw ≠ []) :
    0 ≤ st'.off ∧
    (st'.topLevelCommentStart ≠ 0 ↔
      (trimRightNL raw = topLevelStartMarker ∨
        (trimRightNL raw ≠ topLevelEndMarker ∧ st.topLevelCommentStart ≠ 0))) ∧
    st'.review.CommitID =
      (if trimRightNL raw = topLevelStartMarker ∨ trimRightNL raw = topLevelEndMarker ∨
          st.topLevelCommentStart ≠ 0 then st.review.CommitID
       else match commitStart (trimRightNL raw) with
        | some c => some c
        | none => st.review.CommitID) := by
  have hlen : 1 ≤ raw.length := List.length_pos.mpr hraw
  have hse := startMarker_ne_endMarker
  unfold parseLine at h
  simp only [] at h
  repeat' split at h
  all_goals first
    | contradiction
    | (cases h; refine ⟨?_, ?_, ?_⟩ <;> simp_all <;> omega)

theorem getLast?_toList_append_cons (o : Option Str) (c : Str) (l : List Str) :
    (o.toList ++ c :: l).getLast? = ((some c).toList ++ l).getLast? := by
  rw [List.getLast?_append_of_ne_nil _ (by simp)]
  rfl

theorem parseLoop_commit (dat : Str) (pieces : List Str) (st st' : ParseState)
    (h : parseLoop dat pieces st = some st') (hoff : 0 ≤ st.off)
    (hne : ∀ p ∈ pieces.dropLast, p ≠ []) :
    st'.review.CommitID =
      (st.review.CommitID.toList ++
        (outsideRegion (pieces.map trimRightNL)
          (decide (st.topLevelCommentStart ≠ 0))).filterMap commitStart).getLast? := by
  induction pieces generalizing st with
  | nil =>
    simp only [parseLoop, Option.some.injEq] at h
    subst h
    cases st.review.CommitID <;> simp [outsideRegion]
  | cons p ps ih =>
    by_cases hp : p = []
    · have hps : ps = [] := by
        by_contra hps
        exact hne p (by rw [List.dropLast_cons_of_ne_nil hps]; simp) hp
      subst hps
      subst hp
      simp only [parseLoop, if_true, Option.some.injEq] at h
      subst h
      have e1 : trimRightNL [] = [] := by simp [trimRightNL]
      have e2 : commitStart [] = none := by decide
      have e3 : ([] : Str) ≠ topLevelStartMarker := by decide
      have e4 : ([] : Str) ≠ topLevelEndMarker := by decide
      cases hc : st.review.CommitID <;> by_cases hf : st.topLevelCommentStart = 0 <;>
        simp [outsideRegion, e1, e2, e3, e4, hc, hf]
    · rw [parseLoop_cons _ _ _ _ hp] at h
      cases e : parseLine dat st p with
      | none => rw [e] at h; simp at h
      | some st1 =>
        rw [e] at h
        obtain ⟨ho1, ht1, hc1⟩ := parseLine_commit _ _ _ _ e hoff hp
        have hne1 : ∀ q ∈ ps.dropLast, q ≠ [] := by
          intro q hq
          cases ps with
          | nil => simp at hq
          | cons a as =>
            exact hne q (by rw [List.dropLast_cons_of_ne_nil (by simp)]; simp [hq])
        rw [ih st1 h ho1 hne1]
        simp only [List.map_cons, outsideRegion]
        by_cases h1 : trimRightNL p = topLevelStartMarker
        · have : st1.topLevelCommentStart ≠ 0 := ht1.mpr (Or.inl h1)
          simp only [h1, true_or, if_true] at hc1 ⊢
          simp [this, hc1]
        · by_cases h2 : trimRightNL p = topLevelEndMarker
          · have hes : topLevelEndMarker ≠ topLevelStartMarker :=
              Ne.symm startMarker_ne_endMarker
            have : ¬ st1.topLevelCommentStart ≠ 0 := by
              rw [ht1]; simp [h2, hes]
            simp only [h2, hes, true_or, or_true, if_true, if_false] at hc1 ⊢
            simp [this, hc1]
          · by_cases h3 : st.topLevelCommentStart ≠ 0
            · have : st1.topLevelCommentStart ≠ 0 := ht1.mpr (Or.inr ⟨h2, h3⟩)
              simp only [h1, h2, h3, or_true, if_true, if_false] at hc1 ⊢
              simp [this, hc1, h3]
            · have : ¬ st1.topLevelCommentStart ≠ 0 := by
                rw [ht1]; simp [h1, h3]
              simp only [h1, h2, h3, or_false, if_false] at hc1
              simp only [h1, h2, if_false, h3, this, decide_False, Bool.false_eq_true,
                List.filterMap_cons]
              cases hcm : commitStart (trimRightNL p) with
              | none => rw [hcm] at hc1; simp only [hc1]
              | some c =>
                rw [hcm] at hc1
                simp only [hc1]
                exact (getLast?_toList_append_cons _ _ _).symm

/-! ### The body of a comment as a span of the document -/

theorem splitAfterNL_of_endsNL (dat : Str) (h : dat.getLast? = some '\n') :
    ∃ ls, (∀ l ∈ ls, '\n' ∉ l) ∧ dat = joinLines ls ∧
      splitAfterNL dat = ls.map (fun l => l ++ ['\n']) ++ [[]] := by
  have hne : dat ≠ [] := by rintro rfl; simp at h
  have hd : dat = dat.dropLast ++ ['\n'] := by
    have := List.dropLast_append_getLast? '\n' (by simpa using h)
    exact this.symm
  obtain ⟨ls, h1, h2⟩ := exists_joinLines_of_endsNL dat.dropLast
  rw [← hd] at h2
  refine ⟨ls, h1, h2, ?_⟩
  have := splitAfterNL_joinLines ls [] h1
  rw [List.append_nil, ← h2] at this
  rw [this]
  rfl

theorem pieces_terminated (dat : Str) (h : dat.getLast? = some '\n') :
    ∀ p ∈ splitAfterNL dat, p ≠ [] → ∃ l, '\n' ∉ l ∧ p = l ++ ['\n'] := by
  obtain ⟨ls, h1, _, h3⟩ := splitAfterNL_of_endsNL dat h
  intro p hp hne
  rw [h3] at hp
  rcases List.mem_append.mp hp with hp | hp
  · obtain ⟨l, hl, rfl⟩ := List.mem_map.mp hp
    exact ⟨l, h1 l hl, rfl⟩
  · rw [List.mem_singleton] at hp
    exact absurd hp hne

theorem joinLines_dropLast (cs : List Str) (h : cs ≠ []) :
    (joinLines cs).dropLast = joinSep ['\n'] cs := by
  induction cs with
  | nil => exact absurd rfl h
  | cons c cs ih =>
    cases cs with
    | nil => simp [joinLines, joinSep, List.dropLast_append_of_ne_nil]
    | cons d ds =>
      have := ih (by simp)
      rw [joinLines_cons, show c ++ '\n' :: joinLines (d :: ds) =
        (c ++ ['\n']) ++ joinLines (d :: ds) by simp,
        List.dropLast_append_of_ne_nil _ (joinLines_ne_nil _ (by simp)), this]
      simp [joinSep]

/-- The comments of the loop state in front of a line that is not a comment
line stay in the review that is returned. -/
theorem comments_kept (dat : Str) (pre after : List Str) (st2 : ParseState)
    (hsplit : splitAfterNL dat = pre ++ after)
    (hpre : parseLoop dat pre initState = some st2) (hprene : ∀ p ∈ pre, p ≠ [])
    (hafter : ∀ p ∈ after.head?, p = [] ∨ isCommentLine (trimRightNL p) = false) :
    ∀ r, parseFile dat = some r → ∃ later, r.Comments = st2.review.Comments ++ later := by
  intro r hr
  unfold parseFile at hr
  rw [hsplit, parseLoop_append _ _ _ _ hprene, hpre] at hr
  simp only [Option.bind, Option.map_eq_some'] at hr
  obtain ⟨stf, hstf, rfl⟩ := hr
  cases after with
  | nil =>
    simp only [parseLoop, Option.some.injEq] at hstf
    subst hstf
    exact ⟨[], by simp⟩
  | cons q qs =>
    by_cases hq : q = []
    · simp only [parseLoop, hq, if_true, Option.some.injEq] at hstf
      subst hstf
      exact ⟨[], by simp⟩
    · have hqc : isCommentLine (trimRightNL q) = false := by
        rcases hafter q (by simp) with h | h
        · exact absurd h hq
        · exact h
      have hqn : '\n' ∉ trimRightNL q :=
        splitAfterNL_trim_noNL dat q (by rw [hsplit]; simp)
      rw [parseLoop_cons _ _ _ _ hq] at hstf
      cases e : parseLine dat st2 q with
      | none => rw [e] at hstf; simp at hstf
      | some st3 =>
        rw [e] at hstf
        simp only [Option.bind] at hstf
        obtain ⟨hc3, hs3⟩ := parseLine_nonComment _ _ _ _ e hqn hqc
        obtain ⟨later, hlater⟩ := parseLoop_comments _ _ _ _ hstf
        rw [hs3, if_pos rfl, hc3] at hlater
        exact ⟨later, hlater⟩

/-- A maximal run of comment lines, all with their line break: the comment
that the loop appends has the text of the run without its last byte as body. -/
theorem parseLoop_run_body (dat : Str) (before run after : List Str) (st : ParseState)
    (hsplit : splitAfterNL dat = before ++ run ++ after)
    (hst : parseLoop dat before initState = some st)
    (hgate : st.foundFirstHunk = true) (hreg : st.topLevelCommentStart = 0)
    (hcs : st.commentStart = -1) (hne : run ≠ [])
    (hrun : ∀ p ∈ run, p ≠ [] ∧ isCommentLine (trimRightNL p) = true)
    (hterm : ∀ p ∈ run, ∃ l, '\n' ∉ l ∧ p = l ++ ['\n']) :
    st.off = before.flatten.length ∧
    slice dat st.off (st.off + run.flatten.length - 1) = some run.flatten.dropLast ∧
    ∃ st2, parseLoop dat (before ++ run) initState = some st2 ∧
      st2.review.Comments = st.review.Comments ++
        [{ Path := st.file, Position := st.num, Body := some run.flatten.dropLast }] := by
  have hbne : ∀ p ∈ before, p ≠ [] :=
    splitAfterNL_init_ne_nil dat before (run ++ after)
      (by rw [hsplit, List.append_assoc]) (by simp [hne])
  have hlen : dat.length = before.flatten.length +
      (run.flatten.length + after.flatten.length) := by
    conv_lhs => rw [← splitAfterNL_join dat, hsplit]
    simp only [List.flatten_append, List.length_append]
    omega
  have hdat : dat = before.flatten ++ run.flatten ++ after.flatten := by
    conv_lhs => rw [← splitAfterNL_join dat, hsplit]
    simp only [List.flatten_append]
  have hsafe : Safe dat st (run.flatten.length + after.flatten.length) :=
    parseLoop_safe_inv dat before initState st _ hst hbne (by rw [← hlen]; exact safe_init dat)
  have hoff : st.off = before.flatten.length := by
    rw [parseLoop_off _ _ _ _ hst hbne]; simp [initState]
  obtain ⟨p, ps, rfl⟩ := List.exists_cons_of_ne_nil hne
  obtain ⟨l, hl, hpl⟩ := hterm p (by simp)
  obtain ⟨body, hsl, hloop⟩ := parseLoop_newRun dat p ps st _ hsafe hreg hgate hcs hrun
  have hrne : (p :: ps).flatten ≠ [] := by
    rw [hpl]; simp
  have hmid := slice_mid before.flatten (p :: ps).flatten after.flatten hrne
  rw [← hdat, ← hoff] at hmid
  have e0 : st.off + (p.length : Int) - ((trimRightNL p).length : Int) - 1 = st.off := by
    rw [hpl, trimRightNL_addNL _ hl]
    simp only [List.length_append, List.length_cons, List.length_nil]
    push_cast; ring
  rw [e0, hmid] at hsl
  simp only [Option.some.injEq] at hsl
  subst hsl
  refine ⟨hoff, hmid, ?_⟩
  have key : ∃ st2, parseLoop dat (p :: ps) st = some st2 ∧ st2.review.Comments =
      st.review.Comments ++
        [{ Path := st.file, Position := st.num, Body := some (p :: ps).flatten.dropLast }] :=
    ⟨_, hloop, rfl⟩
  obtain ⟨st2, hl2, hc2⟩ := key
  exact ⟨st2, by rw [parseLoop_append _ _ _ _ hbne, hst]; exact hl2, hc2⟩

/-! ### The inner loop of `wrap` -/

theorem wrapLine_zero (pfx s : Str) : wrapLine pfx 0 s = s := rfl

theorem wrapLine_succ (pfx s : Str) (fuel : Nat) :
    wrapLine pfx (fuel + 1) s =
      if s.length > 70 then
        s.take (breakIndex s) ++ ['\n'] ++ pfx ++ wrapLine pfx fuel (s.drop (breakIndex s))
      else s := rfl

theorem lastIndexFrom_not_mem (s : Str) (i : Nat) (acc : Int) (h : ' ' ∉ s) :
    lastIndexFrom s i acc = acc := by
  induction s generalizing i acc with
  | nil => rfl
  | cons c cs ih =>
    have hc : c ≠ ' ' := fun e => h (by simp [e])
    have hcs : ' ' ∉ cs := fun e => h (by simp [e])
    simp [lastIndexFrom, hc, ih _ _ hcs]

theorem lastIndexFrom_last (a b : Str) (i : Nat) (acc : Int) (h : ' ' ∉ b) :
    lastIndexFrom (a ++ ' ' :: b) i acc = (i : Int) + a.length := by
  induction a generalizing i acc with
  | nil => simp [lastIndexFrom, lastIndexFrom_not_mem _ _ _ h]
  | cons c cs ih =>
    show lastIndexFrom (cs ++ ' ' :: b) (i + 1) (if c = ' ' then (i : Int) else acc) = _
    rw [ih]
    simp only [List.length_cons]
    push_cast; ring

theorem exists_last_space (s : Str) (h : ' ' ∈ s) :
    ∃ a b, s = a ++ ' ' :: b ∧ ' ' ∉ b := by
  induction s with
  | nil => simp at h
  | cons c cs ih =>
    by_cases hcs : ' ' ∈ cs
    · obtain ⟨a, b, e, hb⟩ := ih hcs
      exact ⟨c :: a, b, by rw [e]; rfl, hb⟩
    · have hc : c = ' ' := by
        rcases List.mem_cons.mp h with e | e
        · exact e.symm
        · exact absurd e hcs
      exact ⟨[], cs, by rw [hc]; rfl, hcs⟩

theorem breakIndex_no_space (s : Str) (h : ' ' ∉ s.take 70) : breakIndex s = 70 := by
  simp [breakIndex, lastIndexSpace, lastIndexFrom_not_mem _ _ _ h]

theorem breakIndex_space (s a b : Str) (e : s.take 70 = a ++ ' ' :: b) (h : ' ' ∉ b) :
    breakIndex s = a.length + 1 := by
  have : lastIndexSpace (s.take 70) = (a.length : Int) := by
    rw [e, lastIndexSpace, lastIndexFrom_last _ _ _ _ h]; simp
  simp only [breakIndex, this]
  have h0 : ¬ ((a.length : Int) < 0) := by omega
  rw [if_neg h0]
  omega

theorem breakIndex_bounds (s : Str) : 1 ≤ breakIndex s ∧ breakIndex s ≤ 70 := by
  by_cases h : ' ' ∈ s.take 70
  · obtain ⟨a, b, e, hb⟩ := exists_last_space _ h
    rw [breakIndex_space s a b e hb]
    have := congrArg List.length e
    simp only [List.length_take, List.length_append, List.length_cons] at this
    omega
  · rw [breakIndex_no_space s h]; omega

theorem wrapLine_fuel (pfx : Str) (fuel : Nat) :
    ∀ s : Str, s.length ≤ fuel → wrapLine pfx fuel s = wrapLine pfx s.length s := by
  induction fuel using Nat.strong_induction_on with
  | _ fuel ih =>
    intro s hs
    cases fuel with
    | zero =>
      have : s = [] := List.length_eq_zero.mp (by omega)
      subst this; rfl
    | succ fuel =>
      by_cases hl : s.length > 70
      · obtain ⟨k, hk⟩ : ∃ k, s.length = k + 1 := ⟨s.length - 1, by omega⟩
        have hb := breakIndex_bounds s
        have hd : (s.drop (breakIndex s)).length ≤ k := by
          rw [List.length_drop]; omega
        rw [hk, wrapLine_succ, wrapLine_succ, if_pos hl, if_pos hl,
          ih fuel (by omega) _ (by omega), ih k (by omega) _ hd]
      · cases hs' : s.length with
        | zero => rw [wrapLine_succ, if_neg hl, wrapLine_zero]
        | succ k => rw [wrapLine_succ, if_neg hl, wrapLine_succ, if_neg hl]

theorem wrapLineSteps_eq (pfx : Str) (fuel : Nat) :
    ∀ s : Str, s.length ≤ fuel → wrapLineSteps pfx fuel s = some (wrapLine pfx fuel s) := by
  induction fuel with
  | zero =>
    intro s hs
    have : s = [] := List.length_eq_zero.mp (by omega)
    subst this; rfl
  | succ fuel ih =>
    intro s hs
    by_cases hl : s.length > 70
    · have hb := breakIndex_bounds s
      have hd : (s.drop (breakIndex s)).length ≤ fuel := by
        rw [List.length_drop]; omega
      simp only [wrapLineSteps, if_pos hl, ih _ hd, Option.map, wrapLine_succ]
    · simp only [wrapLineSteps, if_neg hl, wrapLine_succ]

/-! ### Joining and splitting the output lines of `wrap` -/

theorem joinSep_cons (sep a : Str) (l : List Str) (h : l ≠ []) :
    joinSep sep (a :: l) = a ++ sep ++ joinSep sep l := by
  cases l with
  | nil => exact absurd rfl h
  | cons b r => rfl

theorem joinSep_append (sep : Str) (l1 l2 : List Str) (h1 : l1 ≠ []) (h2 : l2 ≠ []) :
    joinSep sep (l1 ++ l2) = joinSep sep l1 ++ sep ++ joinSep sep l2 := by
  induction l1 with
  | nil => exact absurd rfl h1
  | cons a l ih =>
    cases l with
    | nil => rw [List.singleton_append, joinSep_cons _ _ _ h2]; rfl
    | cons b r =>
      have e1 : joinSep sep (a :: (b :: r ++ l2)) =
          a ++ sep ++ joinSep sep (b :: r ++ l2) := joinSep_cons _ _ _ (by simp)
      have e2 : joinSep sep (a :: b :: r) = a ++ sep ++ joinSep sep (b :: r) := rfl
      rw [List.cons_append, e1, ih (by simp), e2]
      simp

theorem wrapSegs_ne_nil (fuel : Nat) (s : Str) : wrapSegs fuel s ≠ [] := by
  cases fuel with
  | zero => simp [wrapSegs]
  | succ fuel =>
    simp only [wrapSegs]
    split <;> simp

theorem wrapLine_eq_joinSep (pfx : Str) (fuel : Nat) (s : Str) :
    wrapLine pfx fuel s = joinSep ('\n' :: pfx) (wrapSegs fuel s) := by
  induction fuel generalizing s with
  | zero => rfl
  | succ fuel ih =>
    rw [wrapLine_succ]
    simp only [wrapSegs]
    split
    · rw [joinSep_cons _ _ _ (wrapSegs_ne_nil _ _), ih]
      simp
    · rfl

theorem wrapSegs_flatten (fuel : Nat) (s : Str) : (wrapSegs fuel s).flatten = s := by
  induction fuel generalizing s with
  | zero => simp [wrapSegs]
  | succ fuel ih =>
    simp only [wrapSegs]
    split
    · simp [ih]
    · simp

theorem wrapSegs_bound (fuel : Nat) :
    ∀ s : Str, s.length ≤ fuel → ∀ seg ∈ wrapSegs fuel s, seg.length ≤ 70 := by
  induction fuel with
  | zero =>
    intro s hs seg hseg
    simp only [wrapSegs, List.mem_singleton] at hseg
    subst hseg; omega
  | succ fuel ih =>
    intro s hs seg hseg
    simp only [wrapSegs] at hseg
    split at hseg
    · have hb := breakIndex_bounds s
      rcases List.mem_cons.mp hseg with rfl | hseg
      · rw [List.length_take]; omega
      · exact ih _ (by rw [List.length_drop]; omega) seg hseg
    · rw [List.mem_singleton] at hseg
      subst hseg; omega

theorem wrapSegs_mem_sub (fuel : Nat) (s : Str) (c : Char) :
    ∀ seg ∈ wrapSegs fuel s, c ∈ seg → c ∈ s := by
  intro seg hseg hc
  rw [← wrapSegs_flatten fuel s]
  exact List.mem_flatten.mpr ⟨seg, hseg, hc⟩

theorem splitNL_ne_nil (s : Str) : splitNL s ≠ [] := by
  cases s with
  | nil => simp [splitNL]
  | cons c cs =>
    simp only [splitNL]
    split
    · simp
    · split <;> simp

theorem splitNL_noNL_mem (s : Str) : ∀ l ∈ splitNL s, '\n' ∉ l := by
  induction s with
  | nil => simp [splitNL]
  | cons c cs ih =>
    intro l hl
    simp only [splitNL] at hl
    split at hl
    · rcases List.mem_cons.mp hl with rfl | hl
      · simp
      · exact ih l hl
    · rename_i hc
      split at hl
      · rename_i h; exact absurd h (splitNL_ne_nil cs)
      · rename_i m ms h
        rw [h] at ih
        rcases List.mem_cons.mp hl with rfl | hl
        · simp only [List.mem_cons, not_or]
          exact ⟨fun e => hc e.symm, ih m (by simp)⟩
        · exact ih l (by simp [hl])

theorem splitNL_joinSep (s : Str) : joinSep ['\n'] (splitNL s) = s := by
  induction s with
  | nil => rfl
  | cons c cs ih =>
    simp only [splitNL]
    split
    · rename_i hc
      rw [joinSep_cons _ _ _ (splitNL_ne_nil cs), ih, hc]; rfl
    · split
      · rename_i h; exact absurd h (splitNL_ne_nil cs)
      · rename_i m ms h
        rw [h] at ih
        cases ms with
        | nil => simp only [joinSep] at ih ⊢; rw [ih]
        | cons a as =>
          rw [joinSep_cons _ _ _ (by simp)] at ih ⊢
          rw [← ih]; simp

theorem splitNL_of_noNL (s : Str) (h : '\n' ∉ s) : splitNL s = [s] := by
  induction s with
  | nil => rfl
  | cons c cs ih =>
    have hc : c ≠ '\n' := fun e => h (by simp [e])
    have hcs : '\n' ∉ cs := fun e => h (by simp [e])
    simp [splitNL, hc, ih hcs]

theorem splitNL_line (l rest : Str) (h : '\n' ∉ l) :
    splitNL (l ++ '\n' :: rest) = l :: splitNL rest := by
  induction l with
  | nil => simp [splitNL]
  | cons c cs ih =>
    have hc : c ≠ '\n' := fun e => h (by simp [e])
    have hcs : '\n' ∉ cs := fun e => h (by simp [e])
    simp [splitNL, hc, ih hcs]

theorem splitNL_of_joinSep (segs : List Str) (hne : segs ≠ [])
    (h : ∀ seg ∈ segs, '\n' ∉ seg) : splitNL (joinSep ['\n'] segs) = segs := by
  induction segs with
  | nil => exact absurd rfl hne
  | cons a l ih =>
    cases l with
    | nil => exact splitNL_of_noNL a (h a (by simp))
    | cons b r =>
      rw [joinSep_cons _ _ _ (by simp), List.append_assoc, List.singleton_append,
        splitNL_line _ _ (h a (by simp)), ih (by simp) (fun s hs => h s (by simp [hs]))]

theorem filter_joinSep (segs : List Str) :
    (joinSep ['\n'] segs).filter (fun c => c != '\n') =
      segs.flatten.filter (fun c => c != '\n') := by
  induction segs with
  | nil => rfl
  | cons a l ih =>
    cases l with
    | nil => simp [joinSep]
    | cons b r =>
      rw [joinSep_cons _ _ _ (by simp), List.flatten_cons, List.filter_append,
        List.filter_append, List.filter_append, ih]
      simp

theorem filter_of_noNL (s : Str) (h : '\n' ∉ s) : s.filter (fun c => c != '\n') = s := by
  rw [List.filter_eq_self]
  intro c hc
  simp only [bne_iff_ne, ne_eq]
  rintro rfl
  exact h hc

theorem replaceCRLF_of_noNL (s : Str) (h : '\n' ∉ s) : replaceCRLF s = s := by
  induction s using replaceCRLF.induct with
  | case1 => rfl
  | case2 c => rfl
  | case3 c d rest hcd ih =>
    exfalso; exact h (by simp [hcd.2])
  | case4 c d rest hcd ih =>
    rw [replaceCRLF, if_neg hcd, ih (fun e => h (by simp [List.mem_cons] at e ⊢; tauto))]

theorem wrap_eq_joinSep_lines (t pfx : Str) :
    wrap t pfx = joinSep ('\n' :: pfx)
      ((splitNL (replaceCRLF t)).map (fun line => wrapLine pfx line.length line)) := by
  unfold wrap
  have key : ∀ (line : Str) (lines : List Str),
      wrapLine pfx line.length line ++
        (lines.map (fun line => ['\n'] ++ pfx ++ wrapLine pfx line.length line)).flatten =
      joinSep ('\n' :: pfx) ((line :: lines).map (fun line => wrapLine pfx line.length line)) := by
    intro line lines
    induction lines generalizing line with
    | nil => simp [joinSep]
    | cons l2 rest ih =>
      have e : joinSep ('\n' :: pfx)
          ((line :: l2 :: rest).map (fun line => wrapLine pfx line.length line)) =
          wrapLine pfx line.length line ++ ('\n' :: pfx) ++ joinSep ('\n' :: pfx)
            ((l2 :: rest).map (fun line => wrapLine pfx line.length line)) :=
        joinSep_cons _ _ _ (by simp)
      rw [e, ← ih l2]
      simp
  cases h : splitNL (replaceCRLF t) with
  | nil => exact absurd h (splitNL_ne_nil _)
  | cons line lines => exact key line lines

theorem joinSep_flatten (sep : Str) (L : List (List Str)) (hne : L ≠ [])
    (h : ∀ l ∈ L, l ≠ []) :
    joinSep sep L.flatten = joinSep sep (L.map (joinSep sep)) := by
  induction L with
  | nil => exact absurd rfl hne
  | cons a l ih =>
    cases l with
    | nil => simp [joinSep]
    | cons b r =>
      have hfl : (b :: r).flatten ≠ [] := by
        have := h b (by simp)
        simp only [List.flatten_cons]
        intro e
        exact this (List.append_eq_nil.mp e).1
      have e : joinSep sep ((a :: b :: r).map (joinSep sep)) =
          joinSep sep a ++ sep ++ joinSep sep ((b :: r).map (joinSep sep)) :=
        joinSep_cons _ _ _ (by simp)
      rw [List.flatten_cons, joinSep_append _ _ _ (h a (by simp)) hfl,
        ih (by simp) (fun x hx => h x (by simp [hx])), e]

theorem wrap_eq_joinSep (t pfx : Str) :
    wrap t pfx = joinSep ('\n' :: pfx) (wrapAllSegs t) := by
  rw [wrap_eq_joinSep_lines, wrapAllSegs,
    joinSep_flatten _ _ (by simpa using splitNL_ne_nil _)
      (by
        intro l hl
        obtain ⟨x, _, rfl⟩ := List.mem_map.mp hl
        exact wrapSegs_ne_nil _ _),
    List.map_map]
  congr 1
  apply List.map_congr_left
  intro line _
  exact wrapLine_eq_joinSep pfx _ line

theorem wrapAllSegs_ne_nil (t : Str) : wrapAllSegs t ≠ [] := by
  unfold wrapAllSegs
  cases h : splitNL (replaceCRLF t) with
  | nil => exact absurd h (splitNL_ne_nil _)
  | cons line lines =>
    simp only [List.map_cons, List.flatten_cons]
    intro e
    exact wrapSegs_ne_nil _ _ (List.append_eq_nil.mp e).1

theorem wrapAllSegs_bound (t : Str) :
    ∀ seg ∈ wrapAllSegs t, seg.length ≤ 70 ∧ '\n' ∉ seg := by
  intro seg hseg
  unfold wrapAllSegs at hseg
  obtain ⟨l, hl, hs⟩ := List.mem_flatten.mp hseg
  obtain ⟨line, hline, rfl⟩ := List.mem_map.mp hl
  exact ⟨wrapSegs_bound _ line (le_refl _) seg hs,
    fun hc => splitNL_noNL_mem _ line hline (wrapSegs_mem_sub _ line '\n' seg hs hc)⟩

theorem splitNL_flatten (u : Str) :
    (splitNL u).flatten = u.filter (fun c => c != '\n') := by
  conv_rhs => rw [← splitNL_joinSep u, filter_joinSep]
  rw [filter_of_noNL]
  intro h
  obtain ⟨l, hl, hc⟩ := List.mem_flatten.mp h
  exact splitNL_noNL_mem u l hl hc

theorem wrapAllSegs_flatten (t : Str) :
    (wrapAllSegs t).flatten = (replaceCRLF t).filter (fun c => c != '\n') := by
  rw [← splitNL_flatten, wrapAllSegs]
  generalize splitNL (replaceCRLF t) = lines
  induction lines with
  | nil => rfl
  | cons l ls ih => simp [wrapSegs_flatten, ih]

/-! ### The same text read behind two different texts -/

theorem slice_within (P W : Str) (lo hi : Int) (h : hi ≤ P.length) :
    slice (P ++ W) lo hi = slice P lo hi := by
  unfold slice
  by_cases hc : 0 ≤ lo ∧ lo ≤ hi
  · rw [if_pos ⟨hc.1, hc.2, by simp only [List.length_append]; push_cast; omega⟩,
      if_pos ⟨hc.1, hc.2, h⟩]
    have h1 : lo.toNat ≤ P.length := by omega
    rw [List.drop_append_of_le_length h1, List.take_append_of_le_length
      (by rw [List.length_drop]; omega)]
  · rw [if_neg (fun hh => hc ⟨hh.1, hh.2.1⟩), if_neg (fun hh => hc ⟨hh.1, hh.2.1⟩)]

theorem slice_shift (A Z : Str) (c d : Int) (hc : 0 ≤ c) :
    slice (A ++ Z) (A.length + c) (A.length + d) = slice Z c d := by
  unfold slice
  by_cases h : c ≤ d ∧ d ≤ Z.length
  · rw [if_pos ⟨by omega, by omega, by simp only [List.length_append]; push_cast; omega⟩,
      if_pos ⟨hc, h.1, h.2⟩]
    have e1 : ((A.length : Int) + c).toNat = A.length + c.toNat := by omega
    have e2 : ((A.length : Int) + d).toNat - (A.length + c.toNat) = d.toNat - c.toNat := by
      omega
    rw [e1, e2, ← List.drop_drop, List.drop_left]
  · rw [if_neg, if_neg]
    · exact fun hh => h ⟨hh.2.1, hh.2.2⟩
    · intro hh
      apply h
      simp only [List.length_append] at hh
      push_cast at hh
      exact ⟨by omega, by omega⟩

theorem slice_pair (A1 A2 Z : Str) (lo1 lo2 hi1 hi2 : Int)
    (hlo : lo1 - A1.length = lo2 - A2.length) (h0 : 0 ≤ lo1 - A1.length)
    (hhi : hi1 - A1.length = hi2 - A2.length) :
    slice (A1 ++ Z) lo1 hi1 = slice (A2 ++ Z) lo2 hi2 := by
  have e1 := slice_shift A1 Z (lo1 - A1.length) (hi1 - A1.length) h0
  have e2 := slice_shift A2 Z (lo2 - A2.length) (hi2 - A2.length) (by omega)
  rw [show (A1.length : Int) + (lo1 - A1.length) = lo1 by ring,
    show (A1.length : Int) + (hi1 - A1.length) = hi1 by ring] at e1
  rw [show (A2.length : Int) + (lo2 - A2.length) = lo2 by ring,
    show (A2.length : Int) + (hi2 - A2.length) = hi2 by ring] at e2
  rw [e1, e2, hlo, hhi]

/-- Whether a slice from the start of the text is in range does not depend on
the text in front, once that text has 49 bytes. -/
theorem slice_zero_isSome (A1 A2 Z : Str) (hi1 hi2 : Int)
    (hhi : hi1 - A1.length = hi2 - A2.length) (h1 : 49 ≤ A1.length) (h2 : 49 ≤ A2.length)
    (hk : -49 ≤ hi1 - A1.length) :
    (slice (A1 ++ Z) 0 hi1).isSome = (slice (A2 ++ Z) 0 hi2).isSome := by
  unfold slice
  by_cases h : hi1 - A1.length ≤ Z.length
  · rw [if_pos ⟨le_refl _, by omega, by simp only [List.length_append]; push_cast; omega⟩,
      if_pos ⟨le_refl _, by omega, by simp only [List.length_append]; push_cast; omega⟩]
    rfl
  · rw [if_neg, if_neg]
    · intro hh; simp only [List.length_append] at hh; push_cast at hh; omega
    · intro hh; simp only [List.length_append] at hh; push_cast at hh; omega

theorem parseLine_shifted (A1 A2 Z : Str) (st1 st2 : ParseState) (raw : Str)
    (h1 : 49 ≤ A1.length) (h2 : 49 ≤ A2.length) (hraw : raw ≠ [])
    (hR : Shifted A1.length A2.length st1 st2) :
    (parseLine (A1 ++ Z) st1 raw = none ∧ parseLine (A2 ++ Z) st2 raw = none) ∨
    ∃ s1 s2, parseLine (A1 ++ Z) st1 raw = some s1 ∧ parseLine (A2 ++ Z) st2 raw = some s2 ∧
      Shifted A1.length A2.length s1 s2 := by
  obtain ⟨hc, hf, hn, hg, hci, hcm, ho, hk, hcs, ht⟩ := hR
  have hlen : 1 ≤ raw.length := List.length_pos.mpr hraw
  have htl := trimRightNL_length_le raw
  by_cases hS : trimRightNL raw = topLevelStartMarker
  · right
    rw [parseLine_start _ _ _ hS, parseLine_start _ _ _ hS]
    refine ⟨_, _, rfl, rfl, hc, hf, hn, hg, hci, hcm, ?_, ?_, Or.inl ⟨rfl, rfl⟩, Or.inr ⟨?_, ?_⟩⟩ <;>
      dsimp only <;> omega
  by_cases hE : trimRightNL raw = topLevelEndMarker
  · rw [parseLine_end _ _ _ hE, parseLine_end _ _ _ hE]
    have hsome : (slice (A1 ++ Z) st1.topLevelCommentStart (st1.off + raw.length - 49 - 2)).isSome =
        (slice (A2 ++ Z) st2.topLevelCommentStart (st2.off + raw.length - 49 - 2)).isSome := by
      rcases ht with ⟨t1, t2⟩ | ⟨t1, t2⟩
      · rw [t1, t2]
        exact slice_zero_isSome A1 A2 Z _ _ (by omega) h1 h2 (by omega)
      · rw [slice_pair A1 A2 Z st1.topLevelCommentStart st2.topLevelCommentStart
          (st1.off + raw.length - 49 - 2) (st2.off + raw.length - 49 - 2) t1 (by omega) (by omega)]
    cases e1 : slice (A1 ++ Z) st1.topLevelCommentStart (st1.off + raw.length - 49 - 2) <;>
      cases e2 : slice (A2 ++ Z) st2.topLevelCommentStart (st2.off + raw.length - 49 - 2) <;>
      rw [e1, e2] at hsome <;> simp at hsome
    · left; exact ⟨rfl, rfl⟩
    · right
      refine ⟨_, _, rfl, rfl, hc, hf, hn, hg, hci, hcm, ?_, ?_, Or.inl ⟨rfl, rfl⟩,
        Or.inl ⟨rfl, rfl⟩⟩ <;> dsimp only <;> omega
  have hreg : st1.topLevelCommentStart ≠ 0 ↔ st2.topLevelCommentStart ≠ 0 := by
    rcases ht with ⟨t1, t2⟩ | ⟨t1, t2⟩
    · simp [t1, t2]
    · constructor <;> intro _ <;> omega
  by_cases hr1 : st1.topLevelCommentStart ≠ 0
  · right
    rw [parseLine_region _ _ _ hS hE hr1, parseLine_region _ _ _ hS hE (hreg.mp hr1)]
    refine ⟨_, _, rfl, rfl, hc, hf, hn, hg, hci, hcm, ?_, ?_, Or.inl ⟨rfl, rfl⟩, ?_⟩
    · dsimp only; omega
    · dsimp only; omega
    · exact ht
  have hr2 : ¬ st2.topLevelCommentStart ≠ 0 := fun h => hr1 (hreg.mpr h)
  have ht' : (st1.topLevelCommentStart = 0 ∧ st2.topLevelCommentStart = 0) :=
    ⟨by simpa using hr1, by simpa using hr2⟩
  simp only [parseLine, hS, hE, hr1, hr2, if_false]
  cases hC : commitStart (trimRightNL raw) with
  | some c =>
    simp only [hC]
    right
    refine ⟨_, _, rfl, rfl, ?_, ?_, ?_, ?_, ?_, ?_, ?_, ?_, ?_, ?_⟩ <;> dsimp only <;>
      first | assumption | rfl | omega
  | none =>
    simp only [hC]
    by_cases hD : hasPrefix (trimRightNL raw) diffStart = true
    · simp only [hD, if_true]
      right
      refine ⟨_, _, rfl, rfl, ?_, ?_, ?_, ?_, ?_, ?_, ?_, ?_, ?_, ?_⟩ <;> dsimp only <;>
        first | assumption | rfl | omega
    · simp only [hD, Bool.false_eq_true, if_false]
      cases hF : fileStart (trimRightNL raw) with
      | some f =>
        simp only [hF]
        right
        refine ⟨_, _, rfl, rfl, ?_, ?_, ?_, ?_, ?_, ?_, ?_, ?_, ?_, ?_⟩ <;> dsimp only <;>
          first | assumption | rfl | omega
      | none =>
        simp only [hF]
        rw [hg]
        cases hG : st2.foundFirstHunk with
        | false =>
          simp only [Bool.not_false, if_true]
          by_cases hH : hasPrefix (trimRightNL raw) hunkStart = true
          · simp only [hH, if_true]
            right
            refine ⟨_, _, rfl, rfl, ?_, ?_, ?_, ?_, ?_, ?_, ?_, ?_, ?_, ?_⟩ <;> dsimp only <;>
              first | assumption | rfl | omega
          · simp only [hH, Bool.false_eq_true, if_false]
            right
            refine ⟨_, _, rfl, rfl, ?_, ?_, ?_, ?_, ?_, ?_, ?_, ?_, ?_, ?_⟩ <;> dsimp only <;>
              first | assumption | rfl | omega
        | true =>
          simp only [Bool.not_true, Bool.false_eq_true, if_false]
          by_cases hP : (trimRightNL raw).head? = some '+' ∨ (trimRightNL raw).head? = some '-' ∨
              (trimRightNL raw).head? = some ' ' ∨ (trimRightNL raw).head? = some '@'
          · simp only [hP, if_true]
            right
            refine ⟨_, _, rfl, rfl, ?_, ?_, ?_, ?_, ?_, ?_, ?_, ?_, ?_, ?_⟩ <;> dsimp only <;>
              first | assumption | rfl | omega
          · simp only [hP, if_false]
            by_cases hT : (trimRightNL raw).head? = some '*'
            · simp only [hT, if_true]
              right
              refine ⟨_, _, rfl, rfl, ?_, ?_, ?_, ?_, ?_, ?_, ?_, ?_, ?_, ?_⟩ <;> dsimp only <;>
                first | assumption | rfl | omega
            · simp only [hT, if_false]
              rcases hcs with ⟨c1, c2⟩ | ⟨c1, c2⟩
              · simp only [c1, c2, if_true]
                rw [slice_pair A1 A2 Z
                  (st1.off + raw.length - (trimRightNL raw).length - 1)
                  (st2.off + raw.length - (trimRightNL raw).length - 1)
                  (st1.off + raw.length - 1) (st2.off + raw.length - 1)
                  (by omega) (by omega) (by omega), hcm, hf, hn]
                cases slice (A2 ++ Z) (st2.off + raw.length - (trimRightNL raw).length - 1)
                    (st2.off + raw.length - 1) with
                | none => left; exact ⟨rfl, rfl⟩
                | some body =>
                  simp only [setLastBody_concat]
                  right
                  refine ⟨_, _, rfl, rfl, ?_, ?_, ?_, ?_, ?_, ?_, ?_, ?_, Or.inr ⟨?_, ?_⟩, ?_⟩ <;>
                    dsimp only <;> first | assumption | rfl | omega
              · have n1 : st1.commentStart ≠ -1 := by omega
                have n2 : st2.commentStart ≠ -1 := by omega
                simp only [n1, n2, if_false]
                rw [slice_pair A1 A2 Z st1.commentStart st2.commentStart
                  (st1.off + raw.length - 1) (st2.off + raw.length - 1)
                  c1 c2 (by omega), hcm]
                cases slice (A2 ++ Z) st2.commentStart (st2.off + raw.length - 1) with
                | none => left; exact ⟨rfl, rfl⟩
                | some body =>
                  simp only []
                  cases setLastBody st2.review.Comments body with
                  | none => left; exact ⟨rfl, rfl⟩
                  | some comments =>
                    right
                    refine ⟨_, _, rfl, rfl, ?_, ?_, ?_, ?_, ?_, ?_, ?_, ?_, Or.inr ⟨?_, ?_⟩, ?_⟩ <;>
                      dsimp only <;> first | assumption | rfl | omega

theorem parseLoop_shifted (A1 A2 Z : Str) (pieces : List Str) (st1 st2 : ParseState)
    (h1 : 49 ≤ A1.length) (h2 : 49 ≤ A2.length)
    (hR : Shifted A1.length A2.length st1 st2) :
    (parseLoop (A1 ++ Z) pieces st1 = none ∧ parseLoop (A2 ++ Z) pieces st2 = none) ∨
    ∃ s1 s2, parseLoop (A1 ++ Z) pieces st1 = some s1 ∧
      parseLoop (A2 ++ Z) pieces st2 = some s2 ∧ Shifted A1.length A2.length s1 s2 := by
  induction pieces generalizing st1 st2 with
  | nil => exact Or.inr ⟨st1, st2, rfl, rfl, hR⟩
  | cons p ps ih =>
    by_cases hp : p = []
    · right
      obtain ⟨hc, hf, hn, hg, hci, hcm, ho, hk, _, ht⟩ := hR
      refine ⟨{ st1 with commentStart := -1 }, { st2 with commentStart := -1 },
        by simp [parseLoop, hp], by simp [parseLoop, hp], ?_⟩
      exact ⟨hc, hf, hn, hg, hci, hcm, ho, hk, Or.inl ⟨rfl, rfl⟩, ht⟩
    · rw [parseLoop_cons _ _ _ _ hp, parseLoop_cons _ _ _ _ hp]
      rcases parseLine_shifted A1 A2 Z st1 st2 p h1 h2 hp hR with ⟨e1, e2⟩ | ⟨s1, s2, e1, e2, hR'⟩
      · left; rw [e1, e2]; exact ⟨rfl, rfl⟩
      · rw [e1, e2]
        exact ih s1 s2 hR'

theorem parseLine_congr (dat1 dat2 : Str) (st : ParseState) (raw : Str)
    (h : ∀ lo hi : Int, hi ≤ st.off + raw.length - 1 → slice dat1 lo hi = slice dat2 lo hi) :
    parseLine dat1 st raw = parseLine dat2 st raw := by
  have e1 := h st.topLevelCommentStart
    (st.off + (raw.length : Int) - ((trimRightNL raw).length : Int) - 2) (by omega)
  have e2 := h (if st.commentStart = -1 then
      st.off + (raw.length : Int) - ((trimRightNL raw).length : Int) - 1 else st.commentStart)
    (st.off + (raw.length : Int) - 1) (le_refl _)
  unfold parseLine
  simp only []
  rw [e1, e2]

theorem parseLoop_congr_head (P W1 W2 : Str) (pieces : List Str) (st : ParseState)
    (hne : ∀ p ∈ pieces, p ≠ [])
    (hoff : st.off + (pieces.flatten.length : Int) ≤ P.length) :
    parseLoop (P ++ W1) pieces st = parseLoop (P ++ W2) pieces st := by
  induction pieces generalizing st with
  | nil => rfl
  | cons p ps ih =>
    have hp : p ≠ [] := hne p (by simp)
    simp only [List.flatten_cons, List.length_append] at hoff
    push_cast at hoff
    rw [parseLoop_cons _ _ _ _ hp, parseLoop_cons _ _ _ _ hp,
      parseLine_congr (P ++ W1) (P ++ W2) st p
        (fun lo hi hhi => by
          rw [slice_within P W1 lo hi (by omega), slice_within P W2 lo hi (by omega)])]
    cases e : parseLine (P ++ W2) st p with
    | none => rfl
    | some st1 =>
      simp only [Option.bind]
      apply ih st1 (fun q hq => hne q (by simp [hq]))
      rw [parseLine_off _ _ _ _ e]
      omega

/-- The loop, from the state `st` it has after the lines `pre`, through a
top-level region with the non-empty text `xs`: it sets the body and is outside
the region again, everything else is as in `st`. -/
theorem parseLoop_through_region (pre xs : List Str) (post : Str) (st : ParseState)
    (hoff : st.off = (joinLines pre).length)
    (hxs : ∀ x ∈ xs, x ≠ topLevelStartMarker ∧ x ≠ topLevelEndMarker ∧ '\n' ∉ x)
    (hne : xs ≠ []) :
    parseLoop (joinLines (pre ++ topLevelStartMarker :: (xs ++ [topLevelEndMarker])) ++ post)
        ((topLevelStartMarker ++ ['\n']) :: (xs.map (fun l => l ++ ['\n']) ++
          [topLevelEndMarker ++ ['\n']])) st =
      some { st with commentStart := -1, off := (joinLines pre).length + 50 + (joinLines xs).length + 50, review := { st.review with Body := some (joinLines xs).dropLast }, topLevelCommentStart := 0 } := by
  generalize hdat : joinLines (pre ++ topLevelStartMarker :: (xs ++ [topLevelEndMarker])) ++ post
    = dat
  have hdat2 : dat = (joinLines pre ++ (topLevelStartMarker ++ ['\n'])) ++ joinLines xs ++
      ((topLevelEndMarker ++ ['\n']) ++ post) := by
    rw [← hdat]
    simp [joinLines_append, joinLines_cons, joinLines_nil]
  rw [parseLoop_cons _ _ _ _ (by simp),
    parseLine_start _ _ _ (trimRightNL_addNL _ startMarker_noNL)]
  simp only [Option.bind]
  rw [parseLoop_append _ _ _ _ (map_addNL_ne_nil _),
    parseLoop_regionLines _ _ _
      (by
        show st.off + ((topLevelStartMarker ++ ['\n']).length : Int) ≠ 0
        rw [hoff]; simp only [List.length_append, startMarker_length]; push_cast
        have : (0 : Int) ≤ (joinLines pre).length := by positivity
        simp only [List.length_cons, List.length_nil]; omega)
      (by rfl) hxs]
  simp only [Option.bind]
  rw [parseLoop_cons _ _ _ _ (by simp),
    parseLine_end _ _ _ (trimRightNL_addNL _ endMarker_noNL)]
  have hsl := slice_mid (joinLines pre ++ (topLevelStartMarker ++ ['\n'])) (joinLines xs)
    ((topLevelEndMarker ++ ['\n']) ++ post) (joinLines_ne_nil _ hne)
  rw [← hdat2] at hsl
  have e2 : st.off + ((topLevelStartMarker ++ ['\n']).length : Int) =
      ((joinLines pre ++ (topLevelStartMarker ++ ['\n'])).length : Int) := by
    rw [hoff]; simp only [List.length_append]; push_cast; ring
  have e3 : st.off + ((topLevelStartMarker ++ ['\n']).length : Int) + (joinLines xs).length +
      ((topLevelEndMarker ++ ['\n']).length : Int) - 49 - 2 =
      ((joinLines pre ++ (topLevelStartMarker ++ ['\n'])).length : Int) +
        (joinLines xs).length - 1 := by
    rw [hoff]
    simp only [List.length_append, endMarker_length, List.length_cons, List.length_nil]
    push_cast; ring
  simp only []
  rw [e3, e2, hsl]
  simp only [Option.map, Option.bind, parseLoop]
  congr 2
  simp only [List.length_append, startMarker_length, endMarker_length, List.length_cons,
    List.length_nil]
  push_cast; ring

/-- The text between the markers has no influence on the commit id and on the
comments, nor on whether a review is returned. -/
theorem parseFile_region_irrelevant (pre xs1 xs2 : List Str) (post : Str)
    (hpre : ∀ l ∈ pre, '\n' ∉ l)
    (hx1 : ∀ x ∈ xs1, x ≠ topLevelStartMarker ∧ x ≠ topLevelEndMarker ∧ '\n' ∉ x)
    (hx2 : ∀ x ∈ xs2, x ≠ topLevelStartMarker ∧ x ≠ topLevelEndMarker ∧ '\n' ∉ x)
    (hne1 : xs1 ≠ []) (hne2 : xs2 ≠ []) :
    (parseFile (joinLines (pre ++ topLevelStartMarker :: (xs1 ++ [topLevelEndMarker])) ++
        post)).map (fun r => (r.CommitID, r.Comments)) =
    (parseFile (joinLines (pre ++ topLevelStartMarker :: (xs2 ++ [topLevelEndMarker])) ++
        post)).map (fun r => (r.CommitID, r.Comments)) := by
  have hall : ∀ xs : List Str,
      (∀ x ∈ xs, x ≠ topLevelStartMarker ∧ x ≠ topLevelEndMarker ∧ '\n' ∉ x) →
      ∀ l ∈ pre ++ topLevelStartMarker :: (xs ++ [topLevelEndMarker]), '\n' ∉ l := by
    intro xs hxs l hl
    rcases List.mem_append.mp hl with hl | hl
    · exact hpre l hl
    · rcases List.mem_cons.mp hl with rfl | hl
      · exact startMarker_noNL
      · rcases List.mem_append.mp hl with hl | hl
        · exact (hxs l hl).2.2
        · rw [List.mem_singleton] at hl
          subst hl
          exact endMarker_noNL
  have hform : ∀ xs : List Str,
      joinLines (pre ++ topLevelStartMarker :: (xs ++ [topLevelEndMarker])) ++ post =
      joinLines pre ++ ((topLevelStartMarker ++ ['\n']) ++ joinLines xs ++
        (topLevelEndMarker ++ ['\n']) ++ post) := by
    intro xs
    simp [joinLines_append, joinLines_cons, joinLines_nil]
  have hform2 : ∀ xs : List Str,
      joinLines (pre ++ topLevelStartMarker :: (xs ++ [topLevelEndMarker])) ++ post =
      (joinLines pre ++ (topLevelStartMarker ++ ['\n']) ++ joinLines xs ++ topLevelEndMarker) ++
        ('\n' :: post) := by
    intro xs
    simp [joinLines_append, joinLines_cons, joinLines_nil]
  have hsplit : ∀ xs : List Str,
      (∀ x ∈ xs, x ≠ topLevelStartMarker ∧ x ≠ topLevelEndMarker ∧ '\n' ∉ x) →
      splitAfterNL (joinLines (pre ++ topLevelStartMarker :: (xs ++ [topLevelEndMarker])) ++
        post) = pre.map (fun l => l ++ ['\n']) ++
          ((topLevelStartMarker ++ ['\n']) :: (xs.map (fun l => l ++ ['\n']) ++
            [topLevelEndMarker ++ ['\n']]) ++ splitAfterNL post) := by
    intro xs hxs
    rw [splitAfterNL_joinLines _ post (hall xs hxs)]
    simp
  -- the lines in front of the region are read in the same way
  have hpreEq : parseLoop (joinLines (pre ++ topLevelStartMarker :: (xs1 ++
        [topLevelEndMarker])) ++ post) (pre.map (fun l => l ++ ['\n'])) initState =
      parseLoop (joinLines (pre ++ topLevelStartMarker :: (xs2 ++
        [topLevelEndMarker])) ++ post) (pre.map (fun l => l ++ ['\n'])) initState := by
    rw [hform xs1, hform xs2]
    exact parseLoop_congr_head _ _ _ _ _ (map_addNL_ne_nil _)
      (by rw [flatten_map_addNL]; simp [initState])
  unfold parseFile
  rw [hsplit xs1 hx1, hsplit xs2 hx2, parseLoop_append _ _ _ _ (map_addNL_ne_nil _),
    parseLoop_append _ _ _ _ (map_addNL_ne_nil _), hpreEq]
  cases hst : parseLoop (joinLines (pre ++ topLevelStartMarker :: (xs2 ++
      [topLevelEndMarker])) ++ post) (pre.map (fun l => l ++ ['\n'])) initState with
  | none => rfl
  | some st =>
    have hoff : st.off = (joinLines pre).length := by
      rw [parseLoop_off _ _ _ _ hst (map_addNL_ne_nil _), flatten_map_addNL]
      simp [initState]
    have hmk : ∀ p ∈ (topLevelStartMarker ++ ['\n']) :: (xs1.map (fun l => l ++ ['\n']) ++
        [topLevelEndMarker ++ ['\n']]), p ≠ [] := by
      intro p hp
      rcases List.mem_cons.mp hp with rfl | hp
      · simp
      · rcases List.mem_append.mp hp with hp | hp
        · exact map_addNL_ne_nil _ p hp
        · rw [List.mem_singleton] at hp; subst hp; simp
    have hmk2 : ∀ p ∈ (topLevelStartMarker ++ ['\n']) :: (xs2.map (fun l => l ++ ['\n']) ++
        [topLevelEndMarker ++ ['\n']]), p ≠ [] := by
      intro p hp
      rcases List.mem_cons.mp hp with rfl | hp
      · simp
      · rcases List.mem_append.mp hp with hp | hp
        · exact map_addNL_ne_nil _ p hp
        · rw [List.mem_singleton] at hp; subst hp; simp
    simp only [Option.bind]
    rw [parseLoop_append _ _ _ _ hmk, parseLoop_append _ _ _ _ hmk2,
      parseLoop_through_region pre xs1 post st hoff hx1 hne1,
      parseLoop_through_region pre xs2 post st hoff hx2 hne2]
    simp only [Option.bind]
    rw [hform2 xs1, hform2 xs2]
    have hR : Shifted
        ((joinLines pre ++ (topLevelStartMarker ++ ['\n']) ++ joinLines xs1 ++
          topLevelEndMarker).length : Int)
        ((joinLines pre ++ (topLevelStartMarker ++ ['\n']) ++ joinLines xs2 ++
          topLevelEndMarker).length : Int)
        { st with commentStart := -1, off := (joinLines pre).length + 50 + (joinLines xs1).length + 50, review := { st.review with Body := some (joinLines xs1).dropLast }, topLevelCommentStart := 0 }
        { st with commentStart := -1, off := (joinLines pre).length + 50 + (joinLines xs2).length + 50, review := { st.review with Body := some (joinLines xs2).dropLast }, topLevelCommentStart := 0 } := by
      refine ⟨rfl, rfl, rfl, rfl, rfl, rfl, ?_, ?_, Or.inl ⟨rfl, rfl⟩, Or.inl ⟨rfl, rfl⟩⟩
      · dsimp only
        simp only [List.length_append, startMarker_length, endMarker_length, List.length_cons,
          List.length_nil]
        push_cast; ring
      · dsimp only
        simp only [List.length_append, startMarker_length, endMarker_length, List.length_cons,
          List.length_nil]
        push_cast; omega
    rcases parseLoop_shifted _ _ ('\n' :: post) (splitAfterNL post) _ _
        (by simp only [List.length_append, endMarker_length]; omega)
        (by simp only [List.length_append, endMarker_length]; omega) hR with
      ⟨e1, e2⟩ | ⟨s1, s2, e1, e2, hS⟩
    · rw [e1, e2]
    · rw [e1, e2]
      obtain ⟨_, _, _, _, hci, hcm, _⟩ := hS
      simp [hci, hcm]

/-! ### The last line break of a run -/

theorem joinLines_dropLast_append (ls : List Str) (h : ls ≠ []) :
    (joinLines ls).dropLast ++ ['\n'] = joinLines ls := by
  induction ls with
  | nil => exact absurd rfl h
  | cons l ls ih =>
    cases ls with
    | nil => simp [joinLines, List.dropLast_append_of_ne_nil]
    | cons b r =>
      have hne : joinLines (b :: r) ≠ [] := joinLines_ne_nil _ (by simp)
      have e : joinLines (l :: b :: r) = (l ++ ['\n']) ++ joinLines (b :: r) := by
        simp [joinLines]
      rw [e, List.dropLast_append_of_ne_nil _ hne, List.append_assoc, ih (by simp)]

/-! ### The gate and the lines read so far -/

theorem gateClosed_concat (ls : List Str) (l : Str) :
    gateClosed (ls ++ [l]) =
      (if closesGate l then true
       else if hasPrefix l hunkStart then false else gateClosed ls) := by
  unfold gateClosed
  rw [List.reverse_append]
  simp only [List.reverse_cons, List.reverse_nil, List.nil_append, List.singleton_append,
    List.takeWhile_cons]
  by_cases h1 : closesGate l = true
  · simp [h1]
  · by_cases h2 : hasPrefix l hunkStart = true
    · simp [h1, h2]
    · simp [h1, h2]

theorem fileStart_not_hunk (l f : Str) (h : fileStart l = some f) :
    hasPrefix l hunkStart = false := by
  unfold fileStart findLitRest at h
  split at h
  · rename_i hh
    have h1 := hh.1
    cases l with
    | nil => revert h1; decide
    | cons c cs =>
      have hc : c = '+' := by
        simp only [fileLit, String.toList, List.isPrefixOf] at h1
        simp at h1
        exact h1.1.symm
      subst hc
      simp [hasPrefix, hunkStart, String.toList, List.isPrefixOf]
  · simp at h

theorem parseLine_gate (dat : Str) (st st' : ParseState) (raw : Str)
    (h : parseLine dat st raw = some st') :
    st'.foundFirstHunk =
      (if trimRightNL raw = topLevelStartMarker ∨ trimRightNL raw = topLevelEndMarker ∨
          st.topLevelCommentStart ≠ 0 then st.foundFirstHunk
       else if closesGate (trimRightNL raw) then false
       else if hasPrefix (trimRightNL raw) hunkStart then true
       else st.foundFirstHunk) := by
  have hf := fileStart_not_hunk (trimRightNL raw)
  unfold parseLine at h
  simp only [] at h
  repeat' split at h
  all_goals first
    | contradiction
    | (cases h; simp_all [closesGate])

theorem parseLoop_gate (dat : Str) (pieces : List Str) (st st' : ParseState)
    (seen : List Str)
    (h : parseLoop dat pieces st = some st') (hoff : 0 ≤ st.off)
    (hne : ∀ p ∈ pieces, p ≠ [])
    (hg : st.foundFirstHunk = !gateClosed seen) :
    st'.foundFirstHunk =
      !gateClosed (seen ++ outsideRegion (pieces.map trimRightNL)
        (decide (st.topLevelCommentStart ≠ 0))) := by
  induction pieces generalizing st seen with
  | nil =>
    simp only [parseLoop, Option.some.injEq] at h
    subst h
    simpa [outsideRegion] using hg
  | cons p ps ih =>
    have hp : p ≠ [] := hne p (by simp)
    rw [parseLoop_cons _ _ _ _ hp] at h
    cases e : parseLine dat st p with
    | none => rw [e] at h; simp at h
    | some st1 =>
      rw [e] at h
      obtain ⟨ho1, ht1, _⟩ := parseLine_commit _ _ _ _ e hoff hp
      have hg1 := parseLine_gate _ _ _ _ e
      have hne1 : ∀ q ∈ ps, q ≠ [] := fun q hq => hne q (by simp [hq])
      simp only [List.map_cons, outsideRegion]
      by_cases h1 : trimRightNL p = topLevelStartMarker
      · have ht : st1.topLevelCommentStart ≠ 0 := ht1.mpr (Or.inl h1)
        rw [if_pos (Or.inl h1)] at hg1
        have := ih st1 seen h ho1 hne1 (by rw [hg1, hg])
        simpa [ht, h1] using this
      · by_cases h2 : trimRightNL p = topLevelEndMarker
        · have hes : topLevelEndMarker ≠ topLevelStartMarker :=
            Ne.symm startMarker_ne_endMarker
          have ht : ¬ st1.topLevelCommentStart ≠ 0 := by
            rw [ht1]; simp [h2, hes]
          rw [if_pos (Or.inr (Or.inl h2))] at hg1
          have := ih st1 seen h ho1 hne1 (by rw [hg1, hg])
          simpa [ht, h2, hes] using this
        · by_cases h3 : st.topLevelCommentStart ≠ 0
          · have ht : st1.topLevelCommentStart ≠ 0 := ht1.mpr (Or.inr ⟨h2, h3⟩)
            rw [if_pos (Or.inr (Or.inr h3))] at hg1
            have := ih st1 seen h ho1 hne1 (by rw [hg1, hg])
            simpa [ht, h3, h1, h2] using this
          · have ht : ¬ st1.topLevelCommentStart ≠ 0 := by
              rw [ht1]; simp [h1, h3]
            rw [if_neg (by simp [h1, h2, h3])] at hg1
            have := ih st1 (seen ++ [trimRightNL p]) h ho1 hne1 (by
              rw [hg1, gateClosed_concat, hg]
              by_cases c1 : closesGate (trimRightNL p) = true
              · simp [c1]
              · by_cases c2 : hasPrefix (trimRightNL p) hunkStart = true
                · simp [c1, c2]
                · simp [c1, c2])
            simpa [ht, h3, h1, h2] using this

/-! ### The path of the comments behind a file header -/

/-- C1.  `parseFile` is not total: when the end marker is the first line of the
document, the slice `dat[topLevelCommentStart : off-len(line)-2]` is taken with
low bound 0 and high bound -1 and the program panics, whatever follows. -/
theorem endMarker_first_line_panics (post : Str) :
    parseFile (topLevelEndMarker ++ '\n' :: post) = none := by
  unfold parseFile
  rw [splitAfterNL_line _ _ endMarker_noNL, parseLoop_cons _ _ _ _ (by simp),
    parseLine_end _ _ _ (trimRightNL_addNL _ endMarker_noNL)]
  have : slice (topLevelEndMarker ++ '\n' :: post) initState.topLevelCommentStart
      (initState.off + ((topLevelEndMarker ++ ['\n']).length : Int) - 49 - 2) = none := by
    rw [slice_eq_none_iff]
    rintro ⟨_, h, _⟩
    have e : initState.off = 0 := rfl
    simp only [e, List.length_append, endMarker_length, List.length_cons,
      List.length_nil] at h
    push_cast at h
    omega
  rw [this]
  rfl

/-- C2.  The round trip fails: for every pull-request record, the document
written by `printPR` without discussion comments, with an empty diff appended,
makes `parseFile` panic at the end marker line (the markers written by
`printPR` are adjacent), so no review is returned. -/
theorem printPR_roundtrip_panics (trimSpace : Str → Str) (projectOwner projectRepo : Str)
    (pr : PullRequest) :
    parseFile (printPR trimSpace projectOwner projectRepo pr [] ++ []) = none := by
  rw [printPR_nil_eq]
  exact parseFile_adjacent_markers_text _ _

/-- C3 (position counting).  For every document made of a first hunk header
line starting with `@@`, then `n` diff lines (first byte `+`, `-`, space or
`@`, none of them a `+++ b/` file header; a later `@@` hunk header is such a
line), then one comment line (with its line break, or without it at the end of
the input), `parseFile` returns exactly one comment and its position is `n`: every
diff line adds one to the position and none is comment text.  When the comment
line has its line break the body of the comment is that line. -/
theorem position_counts_diff_lines (hdr : Str) (ds : List Str) (c tail : Str)
    (hhdr : hasPrefix hdr hunkStart = true) (hhn : '\n' ∉ hdr)
    (hds : ∀ d ∈ ds, isDiffLine d = true ∧ '\n' ∉ d)
    (hc : isCommentLine c = true) (hcn : '\n' ∉ c)
    (htail : tail = ['\n'] ∨ (tail = [] ∧ c ≠ [])) :
    ∃ body, parseFile (joinLines (hdr :: ds) ++ c ++ tail) =
        some { CommitID := none, Body := none, Comments := [{ Path := [], Position := ds.length, Body := some body }] } ∧
      (tail = ['\n'] → body = c) := by
  rcases htail with rfl | ⟨rfl, hne⟩
  · refine ⟨c, ?_, fun _ => rfl⟩
    have h := parseFile_hunk hdr ds [c] hhdr hhn hds
      (by intro x hx; rw [List.mem_singleton] at hx; subst hx; exact ⟨hc, hcn⟩) (by simp)
    have e : joinLines (hdr :: ds ++ [c]) = joinLines (hdr :: ds) ++ c ++ ['\n'] := by
      rw [joinLines_append]; simp [joinLines_cons, joinLines_nil]
    rw [e] at h
    rw [h]
    simp [joinLines]
  · obtain ⟨body, h⟩ := parseFile_hunk_unterminated hdr ds c hhdr hhn hds hc hcn hne
    refine ⟨body, ?_, fun h => absurd h (by simp)⟩
    rw [List.append_nil]
    exact h

/-- The example of the specification: three diff lines after the hunk header,
then `looks good`, give position 3. -/
theorem position_counts_diff_lines_witness :
    ∃ body, parseFile "@@ -1,3 +1,4 @@\n context1\n+added1\n context2\nlooks good\n".toList =
        some { CommitID := none, Body := none, Comments := [{ Path := [], Position := 3, Body := some body }] } ∧
      (['\n'] = ['\n'] → body = "looks good".toList) :=
  position_counts_diff_lines "@@ -1,3 +1,4 @@".toList
    [" context1".toList, "+added1".toList, " context2".toList] "looks good".toList ['\n']
    (by decide) (by decide) (by decide) (by decide) (by decide) (by decide)

/-- C5, as stated, fails: the body of the single comment line `looks good` is
not `"looks good\n"`. -/
theorem comment_body_counterexample :
    ¬ ((parseFile "@@ -1,3 +1,4 @@\n context1\n+added1\n context2\nlooks good\n".toList).map
        (fun r => r.Comments.map (fun c => c.Body)) = some [some "looks good\n".toList]) := by
  decide

/-- C5, amended.  In every document, for every maximal run of comment lines
read in an open hunk outside the top-level region whose lines all end with a
line break, the body of the comment of the run is the concatenation of the
lines of the run with the line breaks between them; the line break that ends
the last line of the run is not part of it.  The comment stays in every review
that `parseFile` returns.

`before` and `after` are the pieces of the document around the run, as the
loop reads them, `run` are the lines of the run without their line breaks, and
`st` is the state of the loop in front of the run (the line in front of the run
is not a comment line); the piece after the run is not a comment line. -/
theorem comment_body_drops_last_newline (dat : Str) (before after : List Str)
    (run : List Str) (st : ParseState)
    (hsplit : splitAfterNL dat = before ++ run.map (fun l => l ++ ['\n']) ++ after)
    (hst : parseLoop dat before initState = some st)
    (hgate : st.foundFirstHunk = true) (hreg : st.topLevelCommentStart = 0)
    (hcs : st.commentStart = -1)
    (hrun : ∀ c ∈ run, isCommentLine c = true ∧ '\n' ∉ c) (hne : run ≠ [])
    (hafter : ∀ p ∈ after.head?, p = [] ∨ isCommentLine (trimRightNL p) = false) :
    ∃ st2 cm,
      parseLoop dat (before ++ run.map (fun l => l ++ ['\n'])) initState = some st2 ∧
      st2.review.Comments = st.review.Comments ++ [cm] ∧
      cm.Path = st.file ∧ cm.Position = st.num ∧
      cm.Body = some (joinLines run).dropLast ∧
      (joinLines run).dropLast ++ ['\n'] = joinLines run ∧
      ∀ r, parseFile dat = some r →
        ∃ later, r.Comments = st.review.Comments ++ cm :: later := by
  have hne2 : run.map (fun l => l ++ ['\n']) ≠ [] := by simpa using hne
  have hrun2 : ∀ p ∈ run.map (fun l => l ++ ['\n']),
      p ≠ [] ∧ isCommentLine (trimRightNL p) = true := by
    intro p hp
    obtain ⟨l, hl, rfl⟩ := List.mem_map.mp hp
    rw [trimRightNL_addNL _ (hrun l hl).2]
    exact ⟨by simp, (hrun l hl).1⟩
  have hterm : ∀ p ∈ run.map (fun l => l ++ ['\n']), ∃ l, '\n' ∉ l ∧ p = l ++ ['\n'] := by
    intro p hp
    obtain ⟨l, hl, rfl⟩ := List.mem_map.mp hp
    exact ⟨l, (hrun l hl).2, rfl⟩
  obtain ⟨_, _, st2, hl2, hc2⟩ :=
    parseLoop_run_body dat before _ after st hsplit hst hgate hreg hcs hne2 hrun2 hterm
  rw [flatten_map_addNL] at hc2
  have hbrne : ∀ p ∈ before ++ run.map (fun l => l ++ ['\n']), p ≠ [] := by
    intro p hp
    rcases List.mem_append.mp hp with hp | hp
    · exact splitAfterNL_init_ne_nil dat before (run.map (fun l => l ++ ['\n']) ++ after)
        (by rw [hsplit, List.append_assoc]) (by simp [hne]) p hp
    · exact (hrun2 p hp).1
  refine ⟨st2, _, hl2, hc2, rfl, rfl, rfl, ?_, ?_⟩
  · exact joinLines_dropLast_append run hne
  · intro r hr
    obtain ⟨later, hlater⟩ := comments_kept dat _ after st2 hsplit hl2 hbrne hafter r hr
    exact ⟨later, by rw [hlater, hc2]; simp⟩

/-- The two examples of the specification: `looks good` gives the body
`"looks good"`, and `why here?`, `also this` give `"why here?\nalso this"`, here
with a diff line behind the run. -/
theorem comment_body_drops_last_newline_witness :
    (∃ st2 cm,
      parseLoop "@@ -1,3 +1,4 @@\n context1\n+added1\n context2\nlooks good\n".toList
        (["@@ -1,3 +1,4 @@\n".toList, " context1\n".toList, "+added1\n".toList,
          " context2\n".toList] ++ ["looks good".toList].map (fun l => l ++ ['\n']))
        initState = some st2 ∧
      st2.review.Comments = [] ++ [cm] ∧ cm.Path = [] ∧ cm.Position = 3 ∧
      cm.Body = some "looks good".toList) ∧
    (∃ st2 cm,
      parseLoop "@@ -1,3 +1,4 @@\n context1\nwhy here?\nalso this\n+added1\n".toList
        (["@@ -1,3 +1,4 @@\n".toList, " context1\n".toList] ++
          ["why here?".toList, "also this".toList].map (fun l => l ++ ['\n']))
        initState = some st2 ∧
      st2.review.Comments = [] ++ [cm] ∧ cm.Path = [] ∧ cm.Position = 1 ∧
      cm.Body = some "why here?\nalso this".toList) :=
  ⟨match comment_body_drops_last_newline
      "@@ -1,3 +1,4 @@\n context1\n+added1\n context2\nlooks good\n".toList
      ["@@ -1,3 +1,4 @@\n".toList, " context1\n".toList, "+added1\n".toList,
        " context2\n".toList] [[]] ["looks good".toList]
      { commit := [], file := [], num := 3, foundFirstHunk := true, commentStart := -1, topLevelCommentStart := 0, review := { CommitID := none, Body := none, Comments := [] }, off := 44 }
      (by decide) (by decide) (by decide) (by decide) (by decide) (by decide) (by decide)
      (by decide) with
    | ⟨st2, cm, h1, h2, h3, h4, h5, _⟩ => ⟨st2, cm, h1, h2, h3, h4, h5⟩,
   match comment_body_drops_last_newline
      "@@ -1,3 +1,4 @@\n context1\nwhy here?\nalso this\n+added1\n".toList
      ["@@ -1,3 +1,4 @@\n".toList, " context1\n".toList] ["+added1\n".toList, []]
      ["why here?".toList, "also this".toList]
      { commit := [], file := [], num := 1, foundFirstHunk := true, commentStart := -1, topLevelCommentStart := 0, review := { CommitID := none, Body := none, Comments := [] }, off := 26 }
      (by decide) (by decide) (by decide) (by decide) (by decide) (by decide) (by decide)
      (by decide) with
    | ⟨st2, cm, h1, h2, h3, h4, h5, _⟩ => ⟨st2, cm, h1, h2, h3, h4, h5⟩⟩

/-- C6, as stated, fails: with the text `LGTM` and its line break between the
markers, the body is not `"LGTM\n"`. -/
theorem region_body_counterexample :
    ¬ ((parseFile (topLevelStartMarker ++ "\nLGTM\n".toList ++ topLevelEndMarker ++
        "\n".toList)).map (fun r => r.Body) = some (some "LGTM\n".toList)) := by
  decide

/-- C6, amended.  For every document made of lines `pre` without a marker
line, the start marker line, a non-empty text `X` of complete lines none of
which is a marker, the end marker line, and a text `post` without an end marker
line, the review body is `X` without its final line break (internal blank lines
and line breaks are kept). -/
theorem region_body_drops_last_newline (pre xs : List Str) (post : Str)
    (hpre : ∀ l ∈ pre, l ≠ topLevelStartMarker ∧ l ≠ topLevelEndMarker ∧ '\n' ∉ l)
    (hxs : ∀ x ∈ xs, x ≠ topLevelStartMarker ∧ x ≠ topLevelEndMarker ∧ '\n' ∉ x)
    (hne : xs ≠ [])
    (hpost : ∀ l ∈ docLines post, l ≠ topLevelEndMarker) :
    ∃ r, parseFile (joinLines pre ++ (topLevelStartMarker ++ ['\n']) ++ joinLines xs ++
          (topLevelEndMarker ++ ['\n']) ++ post) = some r ∧
      r.Body = some (joinLines xs).dropLast := by
  have h := parseFile_region pre xs post hpre hxs hne hpost
  have e : joinLines (pre ++ topLevelStartMarker :: (xs ++ [topLevelEndMarker])) ++ post =
      joinLines pre ++ (topLevelStartMarker ++ ['\n']) ++ joinLines xs ++
        (topLevelEndMarker ++ ['\n']) ++ post := by
    simp [joinLines_append, joinLines_cons, joinLines_nil]
  rw [e] at h
  exact h

/-- A region of three lines, the middle one blank, after a commit header and
in front of a diff: the body is `"LGTM\n\nthanks"`. -/
theorem region_body_drops_last_newline_witness :
    ∃ r, parseFile (joinLines ["commit 0".toList] ++ (topLevelStartMarker ++ ['\n']) ++
          joinLines ["LGTM".toList, [], "thanks".toList] ++
          (topLevelEndMarker ++ ['\n']) ++ "\n@@ -1 +1 @@\n+x\n".toList) = some r ∧
      r.Body = some "LGTM\n\nthanks".toList :=
  region_body_drops_last_newline ["commit 0".toList] ["LGTM".toList, [], "thanks".toList]
    "\n@@ -1 +1 @@\n+x\n".toList (by decide) (by decide) (by decide) (by decide)

/-- C7.  An empty top-level region makes `parseFile` panic instead of
returning the empty body: in every document where complete lines are followed
by the start marker line and directly by the end marker line, the slice taken
at the end marker has a low bound above its high bound. -/
theorem empty_region_panics (pre : List Str) (post : Str) (hpre : ∀ l ∈ pre, '\n' ∉ l) :
    parseFile (joinLines pre ++ (topLevelStartMarker ++ ['\n']) ++
      (topLevelEndMarker ++ ['\n']) ++ post) = none := by
  have h := parseFile_adjacent_markers pre post hpre
  have e : joinLines (pre ++ [topLevelStartMarker, topLevelEndMarker]) ++ post =
      joinLines pre ++ (topLevelStartMarker ++ ['\n']) ++ (topLevelEndMarker ++ ['\n']) ++
        post := by
    simp [joinLines_append, joinLines_cons, joinLines_nil]
  rw [e] at h
  exact h

/-- The two marker lines alone, and the same after a line and in front of a
diff. -/
theorem empty_region_panics_witness :
    parseFile (joinLines [] ++ (topLevelStartMarker ++ ['\n']) ++
      (topLevelEndMarker ++ ['\n']) ++ []) = none ∧
    parseFile (joinLines ["# Review".toList] ++ (topLevelStartMarker ++ ['\n']) ++
      (topLevelEndMarker ++ ['\n']) ++ "@@ -1 +1 @@\n+x\nnice\n".toList) = none :=
  ⟨empty_region_panics [] [] (by decide),
   empty_region_panics ["# Review".toList] "@@ -1 +1 @@\n+x\nnice\n".toList (by decide)⟩

/-- C8.  For every document none of whose lines equals the start marker or the
end marker, `parseFile` returns a review whose body is unset. -/
theorem no_marker_body_unset (dat : Str)
    (h : ∀ l ∈ docLines dat, l ≠ topLevelStartMarker ∧ l ≠ topLevelEndMarker) :
    ∃ r, parseFile dat = some r ∧ r.Body = none :=
  parseFile_no_end dat (fun l hl => (h l hl).2)

/-- A document without marker lines. -/
theorem no_marker_body_unset_witness :
    ∃ r, parseFile "commit abc\n@@ -1 +1 @@\n+x\nnice\n".toList = some r ∧ r.Body = none :=
  no_marker_body_unset "commit abc\n@@ -1 +1 @@\n+x\nnice\n".toList (by decide)

/-- C9 (unterminated region).  For every document that contains a start marker
line and no end marker line, `parseFile` returns a review whose body is unset:
the text after the start marker does not become a body. -/
theorem unterminated_region_body_unset (dat : Str)
    (_hs : topLevelStartMarker ∈ docLines dat)
    (he : topLevelEndMarker ∉ docLines dat) :
    ∃ r, parseFile dat = some r ∧ r.Body = none :=
  parseFile_no_end dat (fun _ hl e => he (e ▸ hl))

/-- A start marker followed by typed text and the end of the input. -/
theorem unterminated_region_body_unset_witness :
    ∃ r, parseFile (topLevelStartMarker ++ "\nLGTM\nthanks".toList) = some r ∧ r.Body = none :=
  unterminated_region_body_unset (topLevelStartMarker ++ "\nLGTM\nthanks".toList)
    (by decide) (by decide)

/-- C12.  A line whose first byte is `*`, read while a hunk is open and outside
the top-level region, appends no comment, changes no comment, and leaves the
position counter, the current file and the commit id as they are (the whole
review is unchanged), whatever the document and the state. -/
theorem star_line_changes_nothing (dat : Str) (st : ParseState) (raw : Str)
    (hstar : (trimRightNL raw).head? = some '*')
    (hreg : st.topLevelCommentStart = 0) (hgate : st.foundFirstHunk = true) :
    ∃ st', parseLine dat st raw = some st' ∧ st'.review = st.review ∧
      st'.num = st.num ∧ st'.file = st.file ∧ st'.commit = st.commit ∧
      st'.foundFirstHunk = st.foundFirstHunk :=
  ⟨_, parseLine_star dat st raw hstar hreg hgate, rfl, rfl, rfl, rfl, rfl⟩

/-- The line `* old comment` in a state with an open hunk, one comment and
position 2. -/
theorem star_line_changes_nothing_witness :
    ∃ st', parseLine "@@\n+x\n+y\nnice\n* old comment\n".toList
        { commit := "abc".toList, file := "a.go".toList, num := 2, foundFirstHunk := true, commentStart := 9, topLevelCommentStart := 0, review := { CommitID := some "abc".toList, Body := none, Comments := [{ Path := "a.go".toList, Position := 2, Body := some "nice".toList }] }, off := 14 }
        "* old comment\n".toList = some st' ∧
      st'.review = { CommitID := some "abc".toList, Body := none, Comments := [{ Path := "a.go".toList, Position := 2, Body := some "nice".toList }] } ∧
      st'.num = 2 ∧ st'.file = "a.go".toList ∧ st'.commit = "abc".toList ∧
      st'.foundFirstHunk = true :=
  star_line_changes_nothing "@@\n+x\n+y\nnice\n* old comment\n".toList
    { commit := "abc".toList, file := "a.go".toList, num := 2, foundFirstHunk := true, commentStart := 9, topLevelCommentStart := 0, review := { CommitID := some "abc".toList, Body := none, Comments := [{ Path := "a.go".toList, Position := 2, Body := some "nice".toList }] }, off := 14 }
    "* old comment\n".toList (by decide) (by decide) (by decide)

/-- C13 (last commit wins).  For every document, the commit id of the review
that `parseFile` returns is the text captured by `^commit (.*)$` on the last
line outside the top-level region that matches the pattern, and it is unset
when no such line exists; and a review is returned whenever the document has no
end marker line. -/
theorem commit_id_is_last_commit (dat : Str) :
    (∀ r, parseFile dat = some r → r.CommitID = lastCommit dat) ∧
    (topLevelEndMarker ∉ docLines dat →
      ∃ r, parseFile dat = some r ∧ r.CommitID = lastCommit dat) := by
  have key : ∀ r, parseFile dat = some r → r.CommitID = lastCommit dat := by
    intro r hr
    unfold parseFile at hr
    simp only [Option.map_eq_some'] at hr
    obtain ⟨st, hst, rfl⟩ := hr
    have h := parseLoop_commit dat _ initState st hst (by simp [initState])
      (splitAfterNL_dropLast_ne_nil dat)
    rw [h]
    simp [lastCommit, docLines, initState]
  refine ⟨key, fun hend => ?_⟩
  obtain ⟨r, hr, _⟩ := parseFile_no_end dat (fun l hl e => hend (e ▸ hl))
  exact ⟨r, hr, key r hr⟩

/-- Two commit headers in front of the region and one inside an unterminated
region: the commit id is that of the second header. -/
theorem commit_id_is_last_commit_witness :
    (∃ r, parseFile ("commit aaa\ncommit bbb\n".toList ++ topLevelStartMarker ++
        "\ncommit zzz\n".toList) = some r ∧
      r.CommitID = lastCommit ("commit aaa\ncommit bbb\n".toList ++ topLevelStartMarker ++
        "\ncommit zzz\n".toList)) ∧
    lastCommit ("commit aaa\ncommit bbb\n".toList ++ topLevelStartMarker ++
        "\ncommit zzz\n".toList) = some "bbb".toList :=
  ⟨(commit_id_is_last_commit ("commit aaa\ncommit bbb\n".toList ++ topLevelStartMarker ++
        "\ncommit zzz\n".toList)).2 (by decide), by decide⟩

set_option maxRecDepth 20000

/-- C14, as stated, fails: a line inside the top-level region that looks like a
commit header does not close the gate.  In the document below the hunk is
opened in front of the region and `commit abc` stands between the markers; no
line starting with `@@` follows it, and still the line `nice` behind the region
makes a comment. -/
theorem closed_gate_counterexample :
    splitAfterNL ("@@ -1 +1 @@\n+x\n".toList ++ topLevelStartMarker ++ "\ncommit abc\n".toList ++
        topLevelEndMarker ++ "\nnice\n".toList) =
      ["@@ -1 +1 @@\n".toList, "+x\n".toList, topLevelStartMarker ++ ['\n'],
        "commit abc\n".toList, topLevelEndMarker ++ ['\n']] ++ "nice\n".toList :: [[]] ∧
    gateClosed (["@@ -1 +1 @@\n".toList, "+x\n".toList, topLevelStartMarker ++ ['\n'],
        "commit abc\n".toList, topLevelEndMarker ++ ['\n']].map trimRightNL) = true ∧
    (parseLoop ("@@ -1 +1 @@\n+x\n".toList ++ topLevelStartMarker ++ "\ncommit abc\n".toList ++
        topLevelEndMarker ++ "\nnice\n".toList)
      ["@@ -1 +1 @@\n".toList, "+x\n".toList, topLevelStartMarker ++ ['\n'],
        "commit abc\n".toList, topLevelEndMarker ++ ['\n']] initState).map
        (fun st => st.review.Comments) = some [] ∧
    (parseFile ("@@ -1 +1 @@\n+x\n".toList ++ topLevelStartMarker ++ "\ncommit abc\n".toList ++
        topLevelEndMarker ++ "\nnice\n".toList)).map (fun r => r.Comments) =
      some [{ Path := [], Position := 1, Body := some "nice".toList }] := by
  refine ⟨by decide, by decide, by decide, by decide⟩

set_option maxRecDepth 512

/-- C14, amended.  The gate is closed exactly when, among the lines read so far
outside the top-level region, no line starting with `@@` stands behind the most
recent commit header or `diff --git ` line (or behind the start of the
document); a line read while the gate is closed never creates or extends a
comment: the comment list is unchanged and no comment is left open.  The loop
gets through these lines when none of them is the end marker.  A document
without a line starting with `@@` gives an empty comment list, and a review is
returned for it whenever it has no end marker line.

`pre` are the pieces of the document in front of the line `p`, as the loop
reads them. -/
theorem closed_gate_ignores_comments :
    (∀ (dat : Str) (pre : List Str) (p : Str) (after : List Str),
      splitAfterNL dat = pre ++ p :: after →
      (∀ st, parseLoop dat pre initState = some st →
        st.foundFirstHunk = !gateClosed (outsideRegion (pre.map trimRightNL) false) ∧
        (gateClosed (outsideRegion (pre.map trimRightNL) false) = true →
          ∀ st', parseLoop dat (pre ++ [p]) initState = some st' →
            st'.review.Comments = st.review.Comments ∧ st'.commentStart = -1)) ∧
      ((∀ q ∈ pre ++ [p], trimRightNL q ≠ topLevelEndMarker) →
        ∃ st st', parseLoop dat pre initState = some st ∧
          parseLoop dat (pre ++ [p]) initState = some st')) ∧
    (∀ dat : Str, (∀ l ∈ docLines dat, hasPrefix l hunkStart = false) →
      (∀ r, parseFile dat = some r → r.Comments = []) ∧
      (topLevelEndMarker ∉ docLines dat → ∃ r, parseFile dat = some r ∧ r.Comments = [])) ∧
    (∀ (dat : Str) (st st' : ParseState) (raw : Str), st.foundFirstHunk = false →
      parseLine dat st raw = some st' →
      st'.review.Comments = st.review.Comments ∧ st'.commentStart = -1) := by
  refine ⟨fun dat pre p after hsplit => ⟨fun st hst => ?_, fun hend => ?_⟩,
    fun dat hno => ?_, fun dat st st' raw hg h => ?_⟩
  · have hbne : ∀ q ∈ pre, q ≠ [] :=
      splitAfterNL_init_ne_nil dat pre _ hsplit (by simp)
    have hflag := parseLoop_gate dat pre initState st [] hst (by simp [initState]) hbne
      (by simp [initState, gateClosed])
    simp only [List.nil_append, initState, ne_eq, not_true_eq_false, decide_False] at hflag
    refine ⟨hflag, fun hc st' hst' => ?_⟩
    have hfalse : st.foundFirstHunk = false := by rw [hflag, hc]; rfl
    rw [parseLoop_append _ _ _ _ hbne, hst] at hst'
    simp only [Option.bind] at hst'
    by_cases hp : p = []
    · subst hp
      simp only [parseLoop, if_true, Option.some.injEq] at hst'
      subst hst'
      exact ⟨rfl, rfl⟩
    · rw [parseLoop_cons _ _ _ _ hp] at hst'
      cases e : parseLine dat st p with
      | none => rw [e] at hst'; simp at hst'
      | some st1 =>
        rw [e] at hst'
        simp only [Option.bind, parseLoop, Option.some.injEq] at hst'
        subst hst'
        obtain ⟨h1, h2, _⟩ := parseLine_gate_closed dat st st1 p e hfalse
        exact ⟨h1, h2⟩
  · have hbne : ∀ q ∈ pre, q ≠ [] :=
      splitAfterNL_init_ne_nil dat pre _ hsplit (by simp)
    have hlen : dat.length = pre.flatten.length + (p.length + after.flatten.length) := by
      conv_lhs => rw [← splitAfterNL_join dat, hsplit]
      simp only [List.flatten_append, List.flatten_cons, List.length_append]
    obtain ⟨st, hst, hsafe, _⟩ := parseLoop_safe dat pre initState
      (p.length + after.flatten.length) (by rw [← hlen]; exact safe_init dat)
      (fun q hq => hend q (by simp [hq]))
    obtain ⟨st', hst', _⟩ := parseLoop_safe dat [p] st after.flatten.length
      (by simpa using hsafe) (fun q hq => hend q (by simp at hq; simp [hq]))
    exact ⟨st, st', hst, by rw [parseLoop_append _ _ _ _ hbne, hst]; exact hst'⟩
  · have key : ∀ r, parseFile dat = some r → r.Comments = [] := by
      intro r hr
      unfold parseFile at hr
      simp only [Option.map_eq_some'] at hr
      obtain ⟨st, hst, rfl⟩ := hr
      exact parseLoop_gate_closed dat _ initState st hst rfl
        (fun p hp => hno _ (List.mem_map_of_mem _ hp))
    refine ⟨key, fun hend => ?_⟩
    obtain ⟨r, hr, _⟩ := parseFile_no_end dat (fun l hl e => hend (e ▸ hl))
    exact ⟨r, hr, key r hr⟩
  · obtain ⟨h1, h2, _⟩ := parseLine_gate_closed dat st st' raw h hg
    exact ⟨h1, h2⟩

/-- An open hunk, then a commit header, then the line `please fix`: the gate is
closed in front of that line and the line makes no comment. -/
theorem closed_gate_ignores_comments_witness :
    ∃ st st',
      parseLoop "@@ -1 +1 @@\n+x\ncommit abc\nplease fix\n".toList
        ["@@ -1 +1 @@\n".toList, "+x\n".toList, "commit abc\n".toList] initState = some st ∧
      parseLoop "@@ -1 +1 @@\n+x\ncommit abc\nplease fix\n".toList
        (["@@ -1 +1 @@\n".toList, "+x\n".toList, "commit abc\n".toList] ++
          ["please fix\n".toList]) initState = some st' ∧
      st.foundFirstHunk = false ∧ st'.review.Comments = st.review.Comments ∧
      st'.commentStart = -1 :=
  have h := closed_gate_ignores_comments.1 "@@ -1 +1 @@\n+x\ncommit abc\nplease fix\n".toList
    ["@@ -1 +1 @@\n".toList, "+x\n".toList, "commit abc\n".toList] "please fix\n".toList [[]]
    (by decide)
  match h.2 (by decide) with
  | ⟨st, st', h1, h2⟩ =>
    ⟨st, st', h1, h2, (h.1 st h1).1.trans (by decide), (h.1 st h1).2 (by decide) st' h2⟩

/-- C15 (the break rule of `wrap`).  `wrap` applies its inner loop to each line
of the text and joins the results with a newline and the prefix.  The inner
loop leaves a text of at most 70 bytes as it is; for a longer text `s` it emits
`s[:i]`, a newline and the prefix, and goes on with `s[i:]`, where `i` is just
behind the last space among the first 70 bytes of `s`, or `i = 70` when these
70 bytes contain no space.  So a line break is never put inside a word when the
70 bytes hold a space.  For a token of 100 bytes without space and newline,
`wrap` gives the first 70 bytes, a newline and the prefix, then the last 30
bytes. -/
theorem wrap_break_rule :
    (∀ t pfx : Str, wrap t pfx = joinSep ('\n' :: pfx)
      ((splitNL (replaceCRLF t)).map (fun line => wrapLine pfx line.length line))) ∧
    (∀ pfx s : Str, s.length ≤ 70 → wrapLine pfx s.length s = s) ∧
    (∀ pfx s : Str, 70 < s.length →
      ∃ i, 1 ≤ i ∧ i ≤ 70 ∧
        ((' ' ∉ s.take 70 ∧ i = 70) ∨
          (∃ a b, s.take 70 = a ++ ' ' :: b ∧ ' ' ∉ b ∧ i = a.length + 1)) ∧
        wrapLine pfx s.length s =
          s.take i ++ ['\n'] ++ pfx ++ wrapLine pfx (s.drop i).length (s.drop i)) ∧
    (∀ token pfx : Str, token.length = 100 → ' ' ∉ token → '\n' ∉ token →
      wrap token pfx = token.take 70 ++ ['\n'] ++ pfx ++ token.drop 70) := by
  have hshort : ∀ pfx s : Str, s.length ≤ 70 → wrapLine pfx s.length s = s := by
    intro pfx s hs
    cases h : s.length with
    | zero => rfl
    | succ k => rw [wrapLine_succ, if_neg (by omega)]
  have hlong : ∀ pfx s : Str, 70 < s.length →
      wrapLine pfx s.length s = s.take (breakIndex s) ++ ['\n'] ++ pfx ++
        wrapLine pfx (s.drop (breakIndex s)).length (s.drop (breakIndex s)) := by
    intro pfx s hs
    obtain ⟨k, hk⟩ : ∃ k, s.length = k + 1 := ⟨s.length - 1, by omega⟩
    have hb := breakIndex_bounds s
    rw [hk, wrapLine_succ, if_pos (by omega),
      wrapLine_fuel pfx k _ (by rw [List.length_drop]; omega)]
  refine ⟨wrap_eq_joinSep_lines, hshort, ?_, ?_⟩
  · intro pfx s hs
    have hb := breakIndex_bounds s
    refine ⟨breakIndex s, hb.1, hb.2, ?_, hlong pfx s hs⟩
    by_cases h : ' ' ∈ s.take 70
    · obtain ⟨a, b, e, hbb⟩ := exists_last_space _ h
      exact Or.inr ⟨a, b, e, hbb, breakIndex_space s a b e hbb⟩
    · exact Or.inl ⟨h, breakIndex_no_space s h⟩
  · intro token pfx hlen hsp hnl
    have hbi : breakIndex token = 70 :=
      breakIndex_no_space token (fun h => hsp (List.mem_of_mem_take h))
    rw [wrap_eq_joinSep_lines, replaceCRLF_of_noNL _ hnl, splitNL_of_noNL _ hnl]
    simp only [List.map_cons, List.map_nil, joinSep]
    rw [hlong pfx token (by omega), hbi, hshort pfx _ (by rw [List.length_drop]; omega)]

/-- The token of 100 letters `x` with the prefix of `printPR`, a tab. -/
theorem wrap_break_rule_witness :
    wrap (List.replicate 100 'x') ['\t'] =
      (List.replicate 100 'x').take 70 ++ ['\n'] ++ ['\t'] ++ (List.replicate 100 'x').drop 70 :=
  wrap_break_rule.2.2.2 (List.replicate 100 'x') ['\t'] (by decide) (by decide) (by decide)

/-- C16 (fixed column width).  The inner loop of `wrap` ends after at most
`len(s)` iterations, so `wrap` terminates; the result of `wrap` is made of
output lines of at most 70 bytes, without newline, joined by a newline and the
prefix; and with the empty prefix every line of the result has at most 70
bytes. -/
theorem wrap_lines_at_most_70 :
    (∀ (pfx s : Str) (fuel : Nat), s.length ≤ fuel →
      wrapLineSteps pfx fuel s = some (wrapLine pfx s.length s)) ∧
    (∀ t pfx : Str, ∃ segs, wrap t pfx = joinSep ('\n' :: pfx) segs ∧
      ∀ seg ∈ segs, seg.length ≤ 70 ∧ '\n' ∉ seg) ∧
    (∀ t : Str, ∀ l ∈ splitNL (wrap t []), l.length ≤ 70) := by
  refine ⟨?_, ?_, ?_⟩
  · intro pfx s fuel h
    rw [wrapLineSteps_eq pfx fuel s h, wrapLine_fuel pfx fuel s h]
  · intro t pfx
    exact ⟨wrapAllSegs t, wrap_eq_joinSep t pfx, wrapAllSegs_bound t⟩
  · intro t l hl
    rw [wrap_eq_joinSep, splitNL_of_joinSep _ (wrapAllSegs_ne_nil t)
      (fun seg hs => (wrapAllSegs_bound t seg hs).2)] at hl
    exact (wrapAllSegs_bound t l hl).1

/-- A text of 100 bytes with a space after every ninth byte: the loop ends
within 100 iterations. -/
theorem wrap_lines_at_most_70_witness :
    wrapLineSteps ['\t'] 100 (List.replicate 10 "abcdefghi ".toList).flatten =
      some (wrapLine ['\t'] (List.replicate 10 "abcdefghi ".toList).flatten.length
        (List.replicate 10 "abcdefghi ".toList).flatten) :=
  wrap_lines_at_most_70.1 ['\t'] (List.replicate 10 "abcdefghi ".toList).flatten 100
    (by decide)

/-- C17, as stated, fails: when the text in front of the start marker does not
end with a line break, the start marker is not a line of its own, no region is
opened, and a commit header typed between the markers sets the commit id. -/
theorem region_lines_counterexample :
    ¬ ((parseFile ("x".toList ++ topLevelStartMarker ++ "\n".toList ++ "commit a\n".toList ++
          topLevelEndMarker ++ "\n".toList ++ [])).map (fun r => r.CommitID) =
       (parseFile ("x".toList ++ topLevelStartMarker ++ "\n".toList ++ "commit b\n".toList ++
          topLevelEndMarker ++ "\n".toList ++ [])).map (fun r => r.CommitID)) := by
  decide

/-- C17, amended.  When the text in front of the start marker is made of
complete lines, the lines inside the top-level region influence nothing but the
body: for all lines `pre`, all texts `post` and all non-empty texts `X1`, `X2`
of complete lines none of which is a marker, the two documents
`pre ++ startMarker ++ "\n" ++ Xi ++ endMarker ++ "\n" ++ post` either both make
`parseFile` fail or both give a review, with the same commit id and the same
list of comments; they both give a review when `pre` has no marker line and
`post` no end marker line. -/
theorem region_lines_only_change_body (pre xs1 xs2 : List Str) (post : Str)
    (hpre : ∀ l ∈ pre, '\n' ∉ l)
    (hx1 : ∀ x ∈ xs1, x ≠ topLevelStartMarker ∧ x ≠ topLevelEndMarker ∧ '\n' ∉ x)
    (hx2 : ∀ x ∈ xs2, x ≠ topLevelStartMarker ∧ x ≠ topLevelEndMarker ∧ '\n' ∉ x)
    (hne1 : xs1 ≠ []) (hne2 : xs2 ≠ []) :
    ((parseFile (joinLines pre ++ (topLevelStartMarker ++ ['\n']) ++ joinLines xs1 ++
        (topLevelEndMarker ++ ['\n']) ++ post)).map (fun r => (r.CommitID, r.Comments)) =
     (parseFile (joinLines pre ++ (topLevelStartMarker ++ ['\n']) ++ joinLines xs2 ++
        (topLevelEndMarker ++ ['\n']) ++ post)).map (fun r => (r.CommitID, r.Comments))) ∧
    ((∀ l ∈ pre, l ≠ topLevelStartMarker ∧ l ≠ topLevelEndMarker) →
      (∀ l ∈ docLines post, l ≠ topLevelEndMarker) →
      ∃ r1 r2,
        parseFile (joinLines pre ++ (topLevelStartMarker ++ ['\n']) ++ joinLines xs1 ++
          (topLevelEndMarker ++ ['\n']) ++ post) = some r1 ∧
        parseFile (joinLines pre ++ (topLevelStartMarker ++ ['\n']) ++ joinLines xs2 ++
          (topLevelEndMarker ++ ['\n']) ++ post) = some r2 ∧
        r1.CommitID = r2.CommitID ∧ r1.Comments = r2.Comments) := by
  have e : ∀ xs : List Str,
      joinLines pre ++ (topLevelStartMarker ++ ['\n']) ++ joinLines xs ++
        (topLevelEndMarker ++ ['\n']) ++ post =
      joinLines (pre ++ topLevelStartMarker :: (xs ++ [topLevelEndMarker])) ++ post := by
    intro xs
    simp [joinLines_append, joinLines_cons, joinLines_nil]
  have key := parseFile_region_irrelevant pre xs1 xs2 post hpre hx1 hx2 hne1 hne2
  rw [← e xs1, ← e xs2] at key
  refine ⟨key, fun hm hpost => ?_⟩
  obtain ⟨r1, h1, _⟩ := parseFile_region pre xs1 post
    (fun l hl => ⟨(hm l hl).1, (hm l hl).2, hpre l hl⟩) hx1 hne1 hpost
  obtain ⟨r2, h2, _⟩ := parseFile_region pre xs2 post
    (fun l hl => ⟨(hm l hl).1, (hm l hl).2, hpre l hl⟩) hx2 hne2 hpost
  rw [← e xs1] at h1
  rw [← e xs2] at h2
  rw [h1, h2] at key
  simp only [Option.map, Option.some.injEq, Prod.mk.injEq] at key
  exact ⟨r1, r2, h1, h2, key.1, key.2⟩

/-- A commit header and a diff line with a comment behind the region; between
the markers once a greeting and once a commit header and a hunk. -/
theorem region_lines_only_change_body_witness :
    ∃ r1 r2,
      parseFile (joinLines ["commit a".toList] ++ (topLevelStartMarker ++ ['\n']) ++
        joinLines ["hello".toList] ++ (topLevelEndMarker ++ ['\n']) ++
        "@@ -1 +1 @@\n+x\nnice\n".toList) = some r1 ∧
      parseFile (joinLines ["commit a".toList] ++ (topLevelStartMarker ++ ['\n']) ++
        joinLines ["commit z".toList, "@@ -9 +9 @@".toList, "+++ b/f".toList] ++
        (topLevelEndMarker ++ ['\n']) ++ "@@ -1 +1 @@\n+x\nnice\n".toList) = some r2 ∧
      r1.CommitID = r2.CommitID ∧ r1.Comments = r2.Comments :=
  (region_lines_only_change_body ["commit a".toList] ["hello".toList]
    ["commit z".toList, "@@ -9 +9 @@".toList, "+++ b/f".toList]
    "@@ -1 +1 @@\n+x\nnice\n".toList
    (by decide) (by decide) (by decide) (by decide) (by decide)).2 (by decide) (by decide)

/-- C18.  In a document whose last byte is a newline, the body of the comment
made by a maximal run of comment lines is the texts of the lines of the run
(without their line terminators) joined by `"\n"`, which is the span of the
document from the first byte of the first line of the run up to, and not
including, the newline that ends its last line.

`before`, `run` and `after` are the pieces of the document as the loop reads
them and `st` is the state of the loop in front of the run (hunk open, outside
the top-level region, the line in front of the run not a comment line); the
piece after the run is not a comment line. -/
theorem comment_body_is_span_of_run (dat : Str) (before run after : List Str)
    (st : ParseState)
    (hnl : dat.getLast? = some '\n')
    (hsplit : splitAfterNL dat = before ++ run ++ after)
    (hst : parseLoop dat before initState = some st)
    (hgate : st.foundFirstHunk = true) (hreg : st.topLevelCommentStart = 0)
    (hcs : st.commentStart = -1)
    (hne : run ≠ [])
    (hrun : ∀ p ∈ run, p ≠ [] ∧ isCommentLine (trimRightNL p) = true)
    (hafter : ∀ p ∈ after.head?, p = [] ∨ isCommentLine (trimRightNL p) = false) :
    ∃ body st2,
      body = joinSep ['\n'] (run.map trimRightNL) ∧
      slice dat before.flatten.length
        ((before.flatten.length : Int) + run.flatten.length - 1) = some body ∧
      parseLoop dat (before ++ run) initState = some st2 ∧
      st2.review.Comments =
        st.review.Comments ++ [{ Path := st.file, Position := st.num, Body := some body }] ∧
      ∀ r, parseFile dat = some r →
        ∃ later, r.Comments =
          st.review.Comments ++ { Path := st.file, Position := st.num, Body := some body } :: later := by
  have hterm : ∀ p ∈ run, ∃ l, '\n' ∉ l ∧ p = l ++ ['\n'] := by
    intro p hp
    exact pieces_terminated dat hnl p (by rw [hsplit]; simp [hp]) (hrun p hp).1
  obtain ⟨hoff, hsl, st2, hl2, hc2⟩ :=
    parseLoop_run_body dat before run after st hsplit hst hgate hreg hcs hne hrun hterm
  have hmap : run = (run.map trimRightNL).map (fun l => l ++ ['\n']) := by
    rw [List.map_map]
    conv_lhs => rw [← List.map_id run]
    apply List.map_congr_left
    intro p hp
    obtain ⟨l, hl, rfl⟩ := hterm p hp
    simp [trimRightNL_addNL _ hl]
  have hbody : run.flatten.dropLast = joinSep ['\n'] (run.map trimRightNL) := by
    conv_lhs => rw [hmap, flatten_map_addNL]
    exact joinLines_dropLast _ (by simpa using hne)
  have hbrne : ∀ p ∈ before ++ run, p ≠ [] := by
    intro p hp
    rcases List.mem_append.mp hp with hp | hp
    · exact splitAfterNL_init_ne_nil dat before (run ++ after)
        (by rw [hsplit, List.append_assoc]) (by simp [hne]) p hp
    · exact (hrun p hp).1
  refine ⟨run.flatten.dropLast, st2, hbody, ?_, hl2, hc2, ?_⟩
  · rw [← hoff]; exact hsl
  · intro r hr
    obtain ⟨later, hlater⟩ := comments_kept dat (before ++ run) after st2 hsplit hl2 hbrne
      hafter r hr
    exact ⟨later, by rw [hlater, hc2]; simp⟩

/-- A run of three comment lines, the middle one empty, between two diff lines:
the body is `"why here?\n\nalso this"`, bytes 15 to 35 of the document. -/
theorem comment_body_is_span_of_run_witness :
    ∃ body st2,
      body = "why here?\n\nalso this".toList ∧
      slice "@@ -1 +1 @@\n+x\nwhy here?\n\nalso this\n+y\n".toList 15 (15 + 21 - 1) = some body ∧
      parseLoop "@@ -1 +1 @@\n+x\nwhy here?\n\nalso this\n+y\n".toList
        (["@@ -1 +1 @@\n".toList, "+x\n".toList] ++
          ["why here?\n".toList, "\n".toList, "also this\n".toList]) initState = some st2 ∧
      st2.review.Comments = [] ++ [{ Path := [], Position := 1, Body := some body }] ∧
      ∀ r, parseFile "@@ -1 +1 @@\n+x\nwhy here?\n\nalso this\n+y\n".toList = some r →
        ∃ later, r.Comments = [] ++ { Path := [], Position := 1, Body := some body } :: later :=
  comment_body_is_span_of_run "@@ -1 +1 @@\n+x\nwhy here?\n\nalso this\n+y\n".toList
    ["@@ -1 +1 @@\n".toList, "+x\n".toList]
    ["why here?\n".toList, "\n".toList, "also this\n".toList]
    ["+y\n".toList, []]
    { commit := [], file := [], num := 1, foundFirstHunk := true, commentStart := -1, topLevelCommentStart := 0, review := { CommitID := none, Body := none, Comments := [] }, off := 15 }
    (by decide) (by decide) (by decide) (by decide) (by decide) (by decide) (by decide)
    (by decide) (by decide)

/-- C19.  A missing final newline changes the result: for the document
`"@@ -1 +1 @@\n+x\nnice"` the body of the comment is `"\nnic"` (it starts one
byte early and loses its last byte), while with the final newline it is
`"nice"`; and for a region closed by an end marker without final newline the
body `LGTM` becomes `LGT`. -/
theorem missing_final_newline_changes_result :
    parseFile "@@ -1 +1 @@\n+x\nnice".toList =
      some { CommitID := none, Body := none, Comments := [{ Path := [], Position := 1, Body := some "\nnic".toList }] } ∧
    parseFile ("@@ -1 +1 @@\n+x\nnice".toList ++ ['\n']) =
      some { CommitID := none, Body := none, Comments := [{ Path := [], Position := 1, Body := some "nice".toList }] } ∧
    (parseFile (topLevelStartMarker ++ "\nLGTM\n".toList ++ topLevelEndMarker)).map
      (fun r => r.Body) = some (some "LGT".toList) ∧
    (parseFile (topLevelStartMarker ++ "\nLGTM\n".toList ++ topLevelEndMarker ++ ['\n'])).map
      (fun r => r.Body) = some (some "LGTM".toList) := by
  refine ⟨by decide, by decide, by decide, by decide⟩

/-- C20 (`wrap` loses and adds no text).  Deleting every newline from
`wrap(t, "")` gives the same text as deleting every newline from `t` after the
replacement of `"\r\n"` by `"\n"`; for every prefix the result of `wrap` is
made of output lines joined by a newline and the prefix, and these lines put
end to end are that same text; and when a line is broken at a space, the space
is the last byte of the line. -/
theorem wrap_keeps_text :
    (∀ t : Str, (wrap t []).filter (fun c => c != '\n') =
      (replaceCRLF t).filter (fun c => c != '\n')) ∧
    (∀ t pfx : Str, ∃ segs, wrap t pfx = joinSep ('\n' :: pfx) segs ∧
      segs.flatten = (replaceCRLF t).filter (fun c => c != '\n')) ∧
    (∀ pfx s : Str, 70 < s.length → ' ' ∈ s.take 70 →
      ∃ a, ' ' ∉ (s.take 70).drop (a.length + 1) ∧
        wrapLine pfx s.length s = (a ++ [' ']) ++ ['\n'] ++ pfx ++
          wrapLine pfx (s.drop (a.length + 1)).length (s.drop (a.length + 1))) := by
  refine ⟨?_, ?_, ?_⟩
  · intro t
    rw [wrap_eq_joinSep, filter_joinSep, wrapAllSegs_flatten, List.filter_filter]
    simp
  · intro t pfx
    exact ⟨wrapAllSegs t, wrap_eq_joinSep t pfx, wrapAllSegs_flatten t⟩
  · intro pfx s hs hsp
    obtain ⟨a, b, e, hb⟩ := exists_last_space _ hsp
    have hbi := breakIndex_space s a b e hb
    have hbb := breakIndex_bounds s
    obtain ⟨k, hk⟩ : ∃ k, s.length = k + 1 := ⟨s.length - 1, by omega⟩
    have htake : s.take (a.length + 1) = a ++ [' '] := by
      have h1 : s.take (a.length + 1) = (s.take 70).take (a.length + 1) := by
        rw [List.take_take]; congr 1; omega
      rw [h1, e, List.take_append_eq_append_take]
      simp
    refine ⟨a, ?_, ?_⟩
    · rw [e, show a ++ ' ' :: b = (a ++ [' ']) ++ b by simp,
        List.drop_left' (by simp)]
      exact hb
    · rw [hk, wrapLine_succ, if_pos (by omega), hbi, htake,
        wrapLine_fuel pfx k _ (by rw [List.length_drop]; omega)]

/-- A text of 100 bytes with a space after every ninth byte. -/
theorem wrap_keeps_text_witness :
    ∃ a, ' ' ∉ ((List.replicate 10 "abcdefghi ".toList).flatten.take 70).drop (a.length + 1) ∧
      wrapLine ['\t'] (List.replicate 10 "abcdefghi ".toList).flatten.length
          (List.replicate 10 "abcdefghi ".toList).flatten =
        (a ++ [' ']) ++ ['\n'] ++ ['\t'] ++
          wrapLine ['\t']
            ((List.replicate 10 "abcdefghi ".toList).flatten.drop (a.length + 1)).length
            ((List.replicate 10 "abcdefghi ".toList).flatten.drop (a.length + 1)) :=
  wrap_keeps_text.2.2 ['\t'] (List.replicate 10 "abcdefghi ".toList).flatten
    (by decide) (by decide)

end Re
